import Mathlib

/-!
Verification of the markdown chunking core (`src/infra/rag/chunk_md.py`).

The Python module is embedded shallowly: strings are Lean `String`s (lists of
characters), the paragraph classifiers are pure functions, and the main
`chunk_text` loop — whose cursor does not always advance — is modelled as a
step function on an explicit state, iterated with fuel.  `chunk_text` itself
returns `none` when the fuel is exhausted; a run of the Python loop that
terminates corresponds to `some` for every sufficiently large fuel.

Modelling notes:
 * Python's `\s` / `str.split()` / `str.strip()` whitespace class is modelled
   by `pySpace` (the ASCII part plus the common Unicode members; the exotic
   Unicode space characters never occur in the claims' inputs).
 * `str.lower()` is modelled ASCII-only (`Char.toLower`); the substrings being
   searched ("<table>", "pagebreak") consist of ASCII letters, for which the
   two agree.
 * `\d` in `is_list_item` is modelled by ASCII `Char.isDigit`.
 * the force-split inner `while` loop of `chunk_text` (which advances by
   `hard_limit` words each round) is written as a map over window indices;
   the two agree whenever `hard_limit ≥ 1`, the only case in which the
   Python loop terminates.
 * `verbose` only produces log output in the source and is omitted.
-/

set_option autoImplicit false
set_option maxRecDepth 8192

namespace ChunkMd

/-- Python whitespace (`\s`, `str.split()`, `str.strip()`): ASCII whitespace
plus the file separators and the common Unicode space characters. -/
def pySpace (c : Char) : Bool :=
  c = ' ' || c = '\t' || c = '\n' || c = '\x0b' || c = '\x0c' || c = '\r' ||
  c = '\x1c' || c = '\x1d' || c = '\x1e' || c = '\x1f' || c = '\x85' || c = '\xa0' ||
  c = '\u1680' || c = '\u2000' || c = '\u2001' || c = '\u2002' || c = '\u2003' ||
  c = '\u2004' || c = '\u2005' || c = '\u2006' || c = '\u2007' || c = '\u2008' ||
  c = '\u2009' || c = '\u200a' || c = '\u2028' || c = '\u2029' || c = '\u202f' ||
  c = '\u205f' || c = '\u3000'

theorem length_dropWhile_le {α : Type} (p : α → Bool) (l : List α) :
    (l.dropWhile p).length ≤ l.length := by
  induction l with
  | nil => simp
  | cons c cs ih =>
    rw [List.dropWhile_cons]
    split
    · exact Nat.le_succ_of_le ih
    · simp

/-- Worker for `splitWs`, structurally recursive on a fuel that counts at
least the length of the list (each round consumes at least one character,
so the fuel-exhausted case is unreachable from `splitWs`). -/
def splitWsF : Nat → List Char → List (List Char)
  | _, [] => []
  | 0, _ :: _ => []
  | fuel + 1, c :: cs =>
    if pySpace c then splitWsF fuel cs
    else (c :: cs.takeWhile (fun d => !pySpace d)) ::
      splitWsF fuel (cs.dropWhile (fun d => !pySpace d))

/-- Python `text.split()` (no separator): the maximal runs of
non-whitespace characters, in order. -/
def splitWs (l : List Char) : List (List Char) :=
  splitWsF l.length l

/-- `get_token_count`: approximate token count by word count
(`len(text.split())`). -/
def get_token_count (text : String) : Nat :=
  (splitWs text.data).length

/-- Index of the last `'\n'` in a character list, if any. -/
def lastNl : List Char → Option Nat
  | [] => none
  | c :: cs =>
    match lastNl cs with
    | some j => some (j + 1)
    | none => if c = '\n' then some 0 else none

/-- Worker for `re.split(r'\n\s*\n', text)`: scan left to right; at a `'\n'`
the regex match consumes greedily as much whitespace as possible subject to
ending in a second `'\n'`, i.e. up to the last `'\n'` of the whitespace run
that follows; `acc` is the segment accumulated since the previous match.
Structurally recursive on a fuel counting at least the length of the list
(each round consumes at least one character, so the fuel-exhausted case is
unreachable from `split_markdown_into_paragraphs`). -/
def paraSplitF : Nat → List Char → List Char → List (List Char)
  | _, [], acc => [acc]
  | 0, rest, acc => [acc ++ rest]
  | fuel + 1, c :: cs, acc =>
    if c = '\n' then
      match lastNl (cs.takeWhile pySpace) with
      | some j => acc :: paraSplitF fuel (cs.drop (j + 1)) []
      | none => paraSplitF fuel cs (acc ++ [c])
    else paraSplitF fuel cs (acc ++ [c])

/-- `split_markdown_into_paragraphs`: split on `re.split(r'\n\s*\n', text)`. -/
def split_markdown_into_paragraphs (text : String) : List String :=
  (paraSplitF text.data.length text.data []).map String.mk

/-- Python `str.strip()`. -/
def pyStrip (l : List Char) : List Char :=
  ((l.dropWhile pySpace).reverse.dropWhile pySpace).reverse

/-- Python `str.lower()` (ASCII). -/
def pyLower (l : List Char) : List Char :=
  l.map Char.toLower

/-- `is_list_item`: `re.match(r'^(\d+\.\s+|\\?[-*]\s+)', para.strip())`. -/
def is_list_item (para : String) : Bool :=
  let p := pyStrip para.data
  (let ds := p.takeWhile Char.isDigit
   !ds.isEmpty &&
     (match p.drop ds.length with
      | '.' :: c :: _ => pySpace c
      | _ => false)) ||
  (let q := match p with
            | '\\' :: r => r
            | _ => p
   match q with
   | c :: d :: _ => (c = '-' || c = '*') && pySpace d
   | _ => false)

/-- `get_heading_level`: number of leading `'#'` of the stripped text when
followed by a whitespace character (`re.match(r'^(#+)\s', p)`), else 0. -/
def get_heading_level (para : String) : Nat :=
  let p := pyStrip para.data
  let hs := p.takeWhile (fun c => c = '#')
  match p.drop hs.length with
  | c :: _ => if !hs.isEmpty && pySpace c then hs.length else 0
  | [] => 0

/-- `is_heading`: `get_heading_level(para) > 0`. -/
def is_heading (para : String) : Bool :=
  decide (0 < get_heading_level para)

/-- Python's `needle in hay` (contiguous substring test), on character
lists. -/
def containsSub (needle : List Char) : List Char → Bool
  | [] => needle.isEmpty
  | c :: t => needle.isPrefixOf (c :: t) || containsSub needle t

/-- `is_table`: the text contains `'|'` or an HTML `<table>` tag
(case-insensitively). -/
def is_table (para : String) : Bool :=
  para.data.contains '|' || containsSub "<table>".data (pyLower para.data)

/-- `is_page_break`: the lowered text contains `"<!-- pagebreak -->"` or
`"pagebreak"`, or the raw text contains `"<!-- pagebreak -->"`. -/
def is_page_break (para : String) : Bool :=
  let lowered := pyLower para.data
  containsSub "<!-- pagebreak -->".data lowered ||
  containsSub "pagebreak".data lowered ||
  containsSub "<!-- pagebreak -->".data para.data

/-! ### The `chunk_text` state machine

The Python `while i < len(paragraphs)` loop mutates a cursor `i`, the
`pending_headings` buffer and the output list `chunks`.  Each iteration of
the outer loop (each path ending in `continue`) becomes one application of
`stepIter`.  The cursor does not always advance — an over-long non-heading
paragraph leaves the state unchanged — so the loop is iterated with fuel. -/

/-- Module constant `CHUNK_TEXT_SOFT_TOKENLIMIT`. -/
def CHUNK_TEXT_SOFT_TOKENLIMIT : Nat := 300

/-- Module constant `CHUNK_TEXT_HARD_TOKENLIMIT`. -/
def CHUNK_TEXT_HARD_TOKENLIMIT : Nat := 800

/-- `paragraphs[i]` (all accesses in the source are guarded by
`i < len(paragraphs)`, so a default is never read). -/
def pget (paras : List String) (i : Nat) : String :=
  paras.getD i ""

/-- `sep.join(...)` on character lists, for a two-character separator
`'\n\n'`. -/
def joinNNL : List (List Char) → List Char
  | [] => []
  | [x] => x
  | x :: y :: rest => x ++ '\n' :: '\n' :: joinNNL (y :: rest)

/-- `'\n\n'.join(paras)`. -/
def joinNN (ps : List String) : String :=
  ⟨joinNNL (ps.map String.data)⟩

/-- Python `s.split('\n\n')`: split at the leftmost, non-overlapping
occurrences of the two-character separator. -/
def splitNNL : List Char → List (List Char)
  | [] => [[]]
  | [c] => [[c]]
  | c :: d :: rest =>
    if c = '\n' ∧ d = '\n' then [] :: splitNNL rest
    else
      match splitNNL (d :: rest) with
      | [] => [[c]]
      | x :: xs => (c :: x) :: xs

/-- `chunk.split('\n\n')` on strings (used by the finalization step). -/
def splitNNs (s : String) : List String :=
  (splitNNL s.data).map String.mk

/-- The loop state of `chunk_text`: cursor, `pending_headings`, and the
emitted `chunks` (content, reason). -/
structure ChunkSt where
  i : Nat
  pending : List String
  chunks : List (String × String)
deriving Repr, DecidableEq

/-- The table-grouping loop (`while i < len(paragraphs) and table_groups < 2`):
admits up to two (heading, table) pairs; a pair that would overflow the hard
limit is refused only when the accumulator is non-empty.  Returns the new
cursor, token count, accumulator and group count. -/
def tableLoopF (paras : List String) (hard : Nat) :
    Nat → Nat → Nat → List String → Nat → Nat × Nat × List String × Nat
  | 0, i, tok, acc, groups => (i, tok, acc, groups)
  | fuel + 1, i, tok, acc, groups =>
    if i < paras.length ∧ groups < 2 then
      if is_heading (pget paras i) ∧ i + 1 < paras.length ∧ is_table (pget paras (i + 1)) then
        let gt := get_token_count (pget paras i) + get_token_count (pget paras (i + 1))
        if hard < tok + gt ∧ acc ≠ [] then (i, tok, acc, groups)
        else tableLoopF paras hard fuel (i + 2) (tok + gt)
          (acc ++ [pget paras i, pget paras (i + 1)]) (groups + 1)
      else (i, tok, acc, groups)
    else (i, tok, acc, groups)

/-- Entry point of the table-grouping loop; the fuel `2 - groups` is exact:
it reaches 0 exactly when `groups < 2` fails, so the fuel-exhausted case
agrees with the loop guard. -/
def tableLoop (paras : List String) (hard : Nat) (i tok : Nat) (acc : List String)
    (groups : Nat) : Nat × Nat × List String × Nat :=
  tableLoopF paras hard (2 - groups) i tok acc groups

/-- The subheading-collection loop of the heading branch: append paragraphs
until a heading of level `≤ major` or an overflow of the hard limit. -/
def headCollectF (paras : List String) (hard major : Nat) :
    Nat → Nat → Nat → List String → Nat × Nat × List String
  | 0, i, tok, acc => (i, tok, acc)
  | fuel + 1, i, tok, acc =>
    if i < paras.length then
      let p := pget paras i
      if is_heading p ∧ get_heading_level p ≤ major then (i, tok, acc)
      else if hard < tok + get_token_count p then (i, tok, acc)
      else headCollectF paras hard major fuel (i + 1) (tok + get_token_count p) (acc ++ [p])
    else (i, tok, acc)

/-- Entry point of the subheading-collection loop; the fuel
`paras.length - i` is exact: it reaches 0 exactly when the loop guard
`i < len(paragraphs)` fails. -/
def headCollect (paras : List String) (hard major : Nat) (i tok : Nat)
    (acc : List String) : Nat × Nat × List String :=
  headCollectF paras hard major (paras.length - i) i tok acc

/-- The collection loop of the non-heading branch: append paragraphs while
not a heading and not overflowing the hard limit. -/
def nonHeadCollectF (paras : List String) (hard : Nat) :
    Nat → Nat → Nat → List String → Nat × Nat × List String
  | 0, i, tok, acc => (i, tok, acc)
  | fuel + 1, i, tok, acc =>
    if i < paras.length then
      let p := pget paras i
      if is_heading p then (i, tok, acc)
      else if hard < tok + get_token_count p then (i, tok, acc)
      else nonHeadCollectF paras hard fuel (i + 1) (tok + get_token_count p) (acc ++ [p])
    else (i, tok, acc)

/-- Entry point of the non-heading collection loop; the fuel
`paras.length - i` is exact: it reaches 0 exactly when the loop guard
`i < len(paragraphs)` fails. -/
def nonHeadCollect (paras : List String) (hard : Nat) (i tok : Nat)
    (acc : List String) : Nat × Nat × List String :=
  nonHeadCollectF paras hard (paras.length - i) i tok acc

/-- `' '.join(...)` on character lists. -/
def spaceJoinL : List (List Char) → List Char
  | [] => []
  | [x] => x
  | x :: y :: rest => x ++ ' ' :: spaceJoinL (y :: rest)

/-- Force-splitting an oversized heading: the `while start < len(words)`
loop emits the window `' '.join(words[start:start+hard_limit])` and advances
`start` by `hard_limit`; written as a map over the window indices (for
`hard_limit ≥ 1` this is exactly the loop; for `hard_limit = 0` the Python
loop does not terminate). -/
def window_chunks (p : String) (hard : Nat) : List (String × String) :=
  let words := splitWs p.data
  (List.range ((words.length + hard - 1) / hard)).map fun k =>
    let start := k * hard
    (⟨spaceJoinL ((words.drop start).take hard)⟩,
     "Force-split oversized heading (" ++ Nat.repr start ++ "-" ++
       Nat.repr (min (start + hard) words.length) ++ " of " ++
       Nat.repr words.length ++ " words)")

/-- One iteration of the outer `while i < len(paragraphs)` loop of
`chunk_text` (every control path of the body ends in `continue`). -/
def stepIter (paras : List String) (hard : Nat) (s : ChunkSt) : ChunkSt :=
  let p := pget paras s.i
  if is_page_break p ∧ s.i + 1 < paras.length ∧ is_list_item (pget paras (s.i + 1)) then
    { s with i := s.i + 1 }
  else if is_heading p then
    let major := get_heading_level p
    if hard < get_token_count p then
      let chunks1 :=
        if s.pending ≠ [] ∧ ¬(∀ q ∈ s.pending, is_page_break q) then
          s.chunks ++ [(joinNN s.pending, "Flushing pending headings before oversized heading")]
        else s.chunks
      { i := s.i + 1, pending := [], chunks := chunks1 ++ window_chunks p hard }
    else if s.i + 1 < paras.length ∧ is_table (pget paras (s.i + 1)) then
      let r := tableLoop paras hard s.i 0 [] 0
      let merged := s.pending ++ r.2.2.1
      let chunks' :=
        if merged ≠ [] ∧ ¬(∀ q ∈ merged, is_page_break q) then
          s.chunks ++ [(joinNN merged,
            "Table chunk with " ++ Nat.repr r.2.2.2 ++ " table group(s), " ++
              Nat.repr r.2.1 ++ " tokens")]
        else s.chunks
      { i := r.1, pending := [], chunks := chunks' }
    else
      let r := headCollect paras hard major (s.i + 1) (get_token_count p) [p]
      let acc := r.2.2
      if (∀ q ∈ acc, is_heading q) ∧ 1 ≤ acc.length ∧ acc.length ≤ 6 then
        { i := r.1, pending := s.pending ++ acc, chunks := s.chunks }
      else
        let merged := s.pending ++ acc
        let reason :=
          if ∀ q ∈ acc, is_heading q then
            "Heading group with " ++ Nat.repr merged.length ++ " headings, " ++
              Nat.repr r.2.1 ++ " tokens"
          else
            "Content under heading level " ++ Nat.repr major ++ ", " ++
              Nat.repr r.2.1 ++ " tokens"
        let chunks' :=
          if merged ≠ [] ∧ ¬(∀ q ∈ merged, is_page_break q) then
            s.chunks ++ [(joinNN merged, reason)]
          else s.chunks
        { i := r.1, pending := [], chunks := chunks' }
  else
    let r := nonHeadCollect paras hard s.i 0 []
    let merged := s.pending ++ r.2.2
    if merged ≠ [] ∧ (∀ q ∈ merged, is_heading q) ∧ 1 ≤ merged.length ∧ merged.length ≤ 6 then
      { i := r.1, pending := merged, chunks := s.chunks }
    else
      let chunks' :=
        if merged ≠ [] ∧ ¬(∀ q ∈ merged, is_page_break q) then
          s.chunks ++ [(joinNN merged,
            "Non-heading content, " ++ Nat.repr r.2.1 ++ " tokens")]
        else s.chunks
      { i := r.1, pending := [], chunks := chunks' }

/-- `k` iterations of the outer loop (stopping early once the cursor has
reached the end of the paragraph sequence). -/
def stepN (paras : List String) (hard : Nat) : Nat → ChunkSt → ChunkSt
  | 0, s => s
  | k + 1, s => if s.i < paras.length then stepN paras hard k (stepIter paras hard s) else s

/-- The outer loop run to completion on the given fuel: `some` final state
if the cursor reaches the end within `fuel` iterations, else `none`. -/
def chunkLoop (paras : List String) (hard : Nat) : Nat → ChunkSt → Option ChunkSt
  | 0, _ => none
  | k + 1, s =>
    if s.i < paras.length then chunkLoop paras hard k (stepIter paras hard s) else some s

/-- The finalization step of `chunk_text` (lines 300–324): merge a leftover
`pending_headings` buffer into the last chunk, or emit or drop it. -/
def finalizeChunks (s : ChunkSt) : List (String × String) :=
  if s.pending = [] then s.chunks
  else
    match s.chunks.getLast? with
    | some lc =>
      let combined := splitNNs lc.1 ++ s.pending
      if ∀ q ∈ combined, is_page_break q then s.chunks
      else
        s.chunks.dropLast ++
          [(joinNN combined, lc.2 ++ " + trailing headings")]
    | none =>
      if ∀ q ∈ s.pending, is_page_break q then []
      else
        [(joinNN s.pending,
          "Only pending headings, " ++ Nat.repr s.pending.length ++ " headings")]

/-- The initial loop state. -/
def initSt : ChunkSt := { i := 0, pending := [], chunks := [] }

/-- `chunk_text(text, soft_limit, hard_limit)`, with fuel for the outer
loop; `soft_limit` is accepted but (as in the source) never consulted. -/
def chunk_text (text : String) (soft_limit hard_limit : Nat) (fuel : Nat) :
    Option (List (String × String)) :=
  let _ := soft_limit
  (chunkLoop (split_markdown_into_paragraphs text) hard_limit fuel initSt).map
    finalizeChunks

/-! ### Basic facts about the loop -/

theorem chunkLoop_step {paras : List String} {hard k : Nat} {s : ChunkSt}
    (h : s.i < paras.length) :
    chunkLoop paras hard (k + 1) s = chunkLoop paras hard k (stepIter paras hard s) := by
  simp [chunkLoop, h]

theorem chunkLoop_done {paras : List String} {hard k : Nat} {s : ChunkSt}
    (h : ¬ s.i < paras.length) :
    chunkLoop paras hard (k + 1) s = some s := by
  simp [chunkLoop, h]

theorem stepN_step {paras : List String} {hard k : Nat} {s : ChunkSt}
    (h : s.i < paras.length) :
    stepN paras hard (k + 1) s = stepN paras hard k (stepIter paras hard s) := by
  simp [stepN, h]

/-! ### String and word-splitting facts -/

/-- Whether a character list contains the two-character substring
`"\n\n"`. -/
def hasNN : List Char → Bool
  | [] => false
  | [_] => false
  | c :: d :: rest => (c = '\n' && d = '\n') || hasNN (d :: rest)

/-- Whether a character list ends with `'\n'`. -/
def endsNL : List Char → Bool
  | [] => false
  | [c] => c = '\n'
  | _ :: d :: rest => endsNL (d :: rest)

/-- The total token count of a paragraph list. -/
def sumT (ps : List String) : Nat :=
  (ps.map get_token_count).sum

theorem mk_data (s : String) : String.mk s.data = s := rfl

theorem splitWsF_congr : ∀ (f g : Nat) (l : List Char),
    l.length ≤ f → l.length ≤ g → splitWsF f l = splitWsF g l := by
  intro f
  induction f with
  | zero =>
    intro g l hf _
    have : l = [] := List.eq_nil_of_length_eq_zero (Nat.le_zero.mp hf)
    subst this
    cases g <;> rfl
  | succ f ih =>
    intro g l hf hg
    cases l with
    | nil => cases g <;> rfl
    | cons c cs =>
      cases g with
      | zero => exact absurd hg (by simp)
      | succ g =>
        simp only [splitWsF]
        split
        · exact ih g cs (by simp at hf; omega) (by simp at hg; omega)
        · have h1 : (cs.dropWhile (fun d => !pySpace d)).length ≤ f := by
            have := length_dropWhile_le (fun d => !pySpace d) cs
            simp at hf; omega
          have h2 : (cs.dropWhile (fun d => !pySpace d)).length ≤ g := by
            have := length_dropWhile_le (fun d => !pySpace d) cs
            simp at hg; omega
          rw [ih g _ h1 h2]

theorem splitWs_cons (c : Char) (cs : List Char) :
    splitWs (c :: cs) =
      if pySpace c then splitWs cs
      else (c :: cs.takeWhile (fun d => !pySpace d)) ::
        splitWs (cs.dropWhile (fun d => !pySpace d)) := by
  show splitWsF (cs.length + 1) (c :: cs) = _
  simp only [splitWsF]
  split
  · rfl
  · rw [splitWsF_congr cs.length (cs.dropWhile (fun d => !pySpace d)).length _
      (length_dropWhile_le _ _) (Nat.le_refl _)]
    rfl

theorem takeWhile_append_stop {α : Type} (p : α → Bool) {c : α} (hc : p c = false) :
    ∀ (a b : List α), (a ++ c :: b).takeWhile p = a.takeWhile p := by
  intro a b
  induction a with
  | nil => simp [List.takeWhile_cons, hc]
  | cons x a ih =>
    simp only [List.cons_append, List.takeWhile_cons]
    cases hx : p x <;> simp [ih]

theorem dropWhile_append_stop {α : Type} (p : α → Bool) {c : α} (hc : p c = false) :
    ∀ (a b : List α), (a ++ c :: b).dropWhile p = a.dropWhile p ++ c :: b := by
  intro a b
  induction a with
  | nil => simp [List.dropWhile_cons, hc]
  | cons x a ih =>
    simp only [List.cons_append, List.dropWhile_cons]
    cases hx : p x <;> simp [ih]

theorem takeWhile_all {α : Type} (p : α → Bool) :
    ∀ (l : List α), (∀ x ∈ l, p x = true) → l.takeWhile p = l := by
  intro l h
  induction l with
  | nil => rfl
  | cons x t ih =>
    rw [List.takeWhile_cons, if_pos (h x (List.mem_cons_self x t))]
    rw [ih (fun y hy => h y (List.mem_cons_of_mem x hy))]

theorem dropWhile_all {α : Type} (p : α → Bool) :
    ∀ (l : List α), (∀ x ∈ l, p x = true) → l.dropWhile p = [] := by
  intro l h
  induction l with
  | nil => rfl
  | cons x t ih =>
    rw [List.dropWhile_cons, if_pos (h x (List.mem_cons_self x t))]
    exact ih (fun y hy => h y (List.mem_cons_of_mem x hy))

theorem splitWs_append_sep {c : Char} (hc : pySpace c = true) :
    ∀ (a b : List Char), splitWs (a ++ c :: b) = splitWs a ++ splitWs b := by
  have main : ∀ (n : Nat) (a b : List Char), a.length ≤ n →
      splitWs (a ++ c :: b) = splitWs a ++ splitWs b := by
    intro n
    induction n with
    | zero =>
      intro a b ha
      have : a = [] := List.eq_nil_of_length_eq_zero (Nat.le_zero.mp ha)
      subst this
      rw [List.nil_append, show splitWs (c :: b) = _ from splitWs_cons c b, if_pos hc]
      rfl
    | succ n ih =>
      intro a b ha
      cases a with
      | nil =>
        rw [List.nil_append, show splitWs (c :: b) = _ from splitWs_cons c b, if_pos hc]
        rfl
      | cons d a =>
        rw [List.cons_append, splitWs_cons, splitWs_cons]
        by_cases hd : pySpace d = true
        · rw [if_pos hd, if_pos hd]
          exact ih a b (by simp at ha; omega)
        · rw [if_neg hd, if_neg hd]
          have hcpred : (fun x => !pySpace x) c = false := by simp [hc]
          rw [takeWhile_append_stop (fun x => !pySpace x) hcpred,
            dropWhile_append_stop (fun x => !pySpace x) hcpred]
          rw [ih (a.dropWhile fun x => !pySpace x) b
            (Nat.le_trans (length_dropWhile_le _ _) (by simp at ha; omega))]
          simp
  intro a b
  exact main a.length a b (Nat.le_refl _)

theorem splitWs_sound :
    ∀ (l : List Char), ∀ w ∈ splitWs l, w ≠ [] ∧ ∀ ch ∈ w, pySpace ch = false := by
  have main : ∀ (n : Nat) (l : List Char), l.length ≤ n →
      ∀ w ∈ splitWs l, w ≠ [] ∧ ∀ ch ∈ w, pySpace ch = false := by
    intro n
    induction n with
    | zero =>
      intro l hl
      have : l = [] := List.eq_nil_of_length_eq_zero (Nat.le_zero.mp hl)
      subst this
      intro w hw
      exact absurd hw (List.not_mem_nil w)
    | succ n ih =>
      intro l hl
      cases l with
      | nil =>
        intro w hw
        exact absurd hw (List.not_mem_nil w)
      | cons d t =>
        rw [splitWs_cons]
        by_cases hd : pySpace d = true
        · rw [if_pos hd]
          exact ih t (by simp at hl; omega)
        · rw [if_neg hd]
          intro w hw
          rcases List.mem_cons.mp hw with rfl | hw
          · refine ⟨by simp, ?_⟩
            intro ch hch
            rcases List.mem_cons.mp hch with rfl | hch
            · exact Bool.not_eq_true _ ▸ (Bool.eq_false_iff.mpr hd)
            · have := List.mem_takeWhile_imp hch
              simpa using this
          · exact ih (t.dropWhile fun x => !pySpace x)
              (Nat.le_trans (length_dropWhile_le _ _) (by simp at hl; omega)) w hw
  intro l
  exact main l.length l (Nat.le_refl _)

theorem splitWs_single {w : List Char} (hne : w ≠ [])
    (hws : ∀ ch ∈ w, pySpace ch = false) : splitWs w = [w] := by
  cases w with
  | nil => exact absurd rfl hne
  | cons c cs =>
    rw [splitWs_cons, if_neg (by simp [hws c (List.mem_cons_self c cs)])]
    rw [takeWhile_all _ cs (fun x hx => by simp [hws x (List.mem_cons_of_mem c hx)])]
    rw [dropWhile_all _ cs (fun x hx => by simp [hws x (List.mem_cons_of_mem c hx)])]
    rfl

theorem splitWs_spaceJoinL :
    ∀ (ws : List (List Char)),
      (∀ w ∈ ws, w ≠ [] ∧ ∀ ch ∈ w, pySpace ch = false) →
      splitWs (spaceJoinL ws) = ws := by
  intro ws
  induction ws with
  | nil => intro _; rfl
  | cons x t ih =>
    intro h
    cases t with
    | nil =>
      exact splitWs_single (h x (List.mem_cons_self x [])).1
        (h x (List.mem_cons_self x [])).2
    | cons y rest =>
      show splitWs (x ++ ' ' :: spaceJoinL (y :: rest)) = x :: y :: rest
      rw [splitWs_append_sep (by decide)]
      rw [splitWs_single (h x (List.mem_cons_self x _)).1 (h x (List.mem_cons_self x _)).2]
      rw [ih (fun w hw => h w (List.mem_cons_of_mem x hw))]
      rfl

theorem tokensL_joinNNL :
    ∀ (ls : List (List Char)),
      (splitWs (joinNNL ls)).length = (ls.map (fun l => (splitWs l).length)).sum := by
  intro ls
  induction ls with
  | nil => rfl
  | cons x t ih =>
    cases t with
    | nil => simp [joinNNL]
    | cons y rest =>
      show (splitWs (x ++ '\n' :: '\n' :: joinNNL (y :: rest))).length = _
      rw [splitWs_append_sep (by decide)]
      rw [show splitWs ('\n' :: joinNNL (y :: rest)) = splitWs (joinNNL (y :: rest)) from by
        rw [splitWs_cons, if_pos (show pySpace '\n' = true from by decide)]]
      rw [List.length_append, ih]
      simp

theorem get_token_count_joinNN (ps : List String) :
    get_token_count (joinNN ps) = sumT ps := by
  show (splitWs (joinNNL (ps.map String.data))).length = sumT ps
  rw [tokensL_joinNNL]
  unfold sumT get_token_count
  rw [List.map_map]
  rfl

/-! ### Round trip between `'\n\n'.join` and `split('\n\n')` -/

theorem endsNL_cons_cons (c d : Char) (rest : List Char) :
    endsNL (c :: d :: rest) = endsNL (d :: rest) := rfl

theorem noNL_hasNN {l : List Char} (h : ∀ ch ∈ l, ch ≠ '\n') : hasNN l = false := by
  induction l with
  | nil => rfl
  | cons c t ih =>
    cases t with
    | nil => rfl
    | cons d rest =>
      show ((c = '\n' && d = '\n') || hasNN (d :: rest)) = false
      rw [ih (fun ch hch => h ch (List.mem_cons_of_mem c hch))]
      simp [h c (List.mem_cons_self c _)]

theorem noNL_endsNL {l : List Char} (h : ∀ ch ∈ l, ch ≠ '\n') : endsNL l = false := by
  induction l with
  | nil => rfl
  | cons c t ih =>
    cases t with
    | nil =>
      show (decide (c = '\n')) = false
      simp [h c (List.mem_cons_self c _)]
    | cons d rest =>
      rw [endsNL_cons_cons]
      exact ih (fun ch hch => h ch (List.mem_cons_of_mem c hch))

theorem splitNNL_cons_cons (c d : Char) (rest : List Char) :
    splitNNL (c :: d :: rest) =
      if c = '\n' ∧ d = '\n' then [] :: splitNNL rest
      else
        match splitNNL (d :: rest) with
        | [] => [[c]]
        | x :: xs => (c :: x) :: xs := rfl

theorem splitNNL_of_no_NN {l : List Char} (h : hasNN l = false) : splitNNL l = [l] := by
  induction l with
  | nil => rfl
  | cons c t ih =>
    cases t with
    | nil => rfl
    | cons d rest =>
      have h' : ((c = '\n' && d = '\n') || hasNN (d :: rest)) = false := h
      rw [Bool.or_eq_false_iff] at h'
      rw [splitNNL_cons_cons, if_neg (by simpa using h'.1), ih h'.2]

theorem splitNNL_append_sep {x : List Char} (hNN : hasNN x = false)
    (hNL : endsNL x = false) (y : List Char) :
    splitNNL (x ++ '\n' :: '\n' :: y) = x :: splitNNL y := by
  induction x with
  | nil =>
    show splitNNL ('\n' :: '\n' :: y) = [] :: splitNNL y
    rw [splitNNL_cons_cons, if_pos ⟨rfl, rfl⟩]
  | cons c t ih =>
    cases t with
    | nil =>
      have hc : c ≠ '\n' := by
        intro hc
        rw [hc] at hNL
        exact absurd hNL (by simp [endsNL])
      show splitNNL (c :: '\n' :: '\n' :: y) = [c] :: splitNNL y
      rw [splitNNL_cons_cons, if_neg (by simp [hc])]
      rw [show splitNNL ('\n' :: '\n' :: y) = [] :: splitNNL y from by
        rw [splitNNL_cons_cons, if_pos ⟨rfl, rfl⟩]]
    | cons d rest =>
      have h' : ((c = '\n' && d = '\n') || hasNN (d :: rest)) = false := hNN
      rw [Bool.or_eq_false_iff] at h'
      have hNL' : endsNL (d :: rest) = false := hNL
      show splitNNL (c :: ((d :: rest) ++ '\n' :: '\n' :: y)) = (c :: d :: rest) :: splitNNL y
      have harg : (d :: rest) ++ '\n' :: '\n' :: y = d :: (rest ++ '\n' :: '\n' :: y) := rfl
      rw [show splitNNL (c :: ((d :: rest) ++ '\n' :: '\n' :: y)) =
          (match splitNNL ((d :: rest) ++ '\n' :: '\n' :: y) with
           | [] => [[c]]
           | x :: xs => (c :: x) :: xs) from by
        rw [harg, splitNNL_cons_cons, if_neg (by simpa using h'.1)]]
      rw [ih h'.2 hNL']

theorem splitNNL_joinNNL :
    ∀ (ls : List (List Char)), ls ≠ [] → (∀ l ∈ ls, hasNN l = false) →
      (∀ l ∈ ls.dropLast, endsNL l = false) →
      splitNNL (joinNNL ls) = ls := by
  intro ls
  induction ls with
  | nil => intro h; exact absurd rfl h
  | cons x t ih =>
    intro _ hNN hNL
    cases t with
    | nil => exact splitNNL_of_no_NN (hNN x (List.mem_cons_self x _))
    | cons y rest =>
      show splitNNL (x ++ '\n' :: '\n' :: joinNNL (y :: rest)) = x :: y :: rest
      rw [splitNNL_append_sep (hNN x (List.mem_cons_self x _))
        (hNL x (by simp [List.dropLast_cons₂]))]
      rw [ih (by simp) (fun l hl => hNN l (List.mem_cons_of_mem x hl))
        (fun l hl => hNL l (by simp [List.dropLast_cons₂]; exact Or.inr (by simpa using hl)))]

/-- `'\n\n'.join` of a single paragraph. -/
theorem joinNN_singleton (w : String) : joinNN [w] = w := rfl

/-- Re-splitting a joined chunk recovers its paragraph list, provided no
paragraph contains `"\n\n"` and no paragraph except the last ends in
`'\n'`. -/
theorem splitNNs_joinNN {ps : List String} (hne : ps ≠ [])
    (hNN : ∀ p ∈ ps, hasNN p.data = false)
    (hNL : ∀ p ∈ ps.dropLast, endsNL p.data = false) :
    splitNNs (joinNN ps) = ps := by
  show (splitNNL (joinNNL (ps.map String.data))).map String.mk = ps
  rw [splitNNL_joinNNL (ps.map String.data) (by simpa using hne)]
  · rw [List.map_map]
    exact List.map_id'' (fun s => mk_data s) ps
  · intro l hl
    rcases List.mem_map.mp hl with ⟨p, hp, rfl⟩
    exact hNN p hp
  · intro l hl
    rw [← List.map_dropLast] at hl
    rcases List.mem_map.mp hl with ⟨p, hp, rfl⟩
    exact hNL p hp

/-! ### Facts about force-split windows -/

theorem spaceJoinL_mem :
    ∀ (ws : List (List Char)) (ch : Char), ch ∈ spaceJoinL ws →
      (∃ w ∈ ws, ch ∈ w) ∨ ch = ' ' := by
  intro ws
  induction ws with
  | nil =>
    intro ch h
    exact absurd h (List.not_mem_nil ch)
  | cons x t ih =>
    intro ch h
    cases t with
    | nil => exact Or.inl ⟨x, List.mem_cons_self x _, h⟩
    | cons y rest =>
      rcases List.mem_append.mp h with h | h
      · exact Or.inl ⟨x, List.mem_cons_self x _, h⟩
      · rcases List.mem_cons.mp h with rfl | h
        · exact Or.inr rfl
        · rcases ih ch h with ⟨w, hw, hch⟩ | h
          · exact Or.inl ⟨w, List.mem_cons_of_mem x hw, hch⟩
          · exact Or.inr h

/-- Every force-split window carries at most `hard` tokens, contains no
newline character, and its reason string starts with
`"Force-split oversized heading"`. -/
theorem window_facts {p : String} {hard : Nat} {w r : String}
    (h : (w, r) ∈ window_chunks p hard) :
    get_token_count w ≤ hard ∧ (∀ ch ∈ w.data, ch ≠ '\n') ∧
      List.IsPrefix "Force-split oversized heading".data r.data := by
  unfold window_chunks at h
  rcases List.mem_map.mp h with ⟨k, _, heq⟩
  have hw : w = ⟨spaceJoinL (((splitWs p.data).drop (k * hard)).take hard)⟩ :=
    (congrArg Prod.fst heq).symm
  have hr : r = "Force-split oversized heading (" ++ Nat.repr (k * hard) ++ "-" ++
      Nat.repr (min (k * hard + hard) (splitWs p.data).length) ++ " of " ++
      Nat.repr (splitWs p.data).length ++ " words)" :=
    (congrArg Prod.snd heq).symm
  have hsub : ∀ x ∈ ((splitWs p.data).drop (k * hard)).take hard,
      x ≠ [] ∧ ∀ ch ∈ x, pySpace ch = false := by
    intro x hx
    exact splitWs_sound p.data x (List.mem_of_mem_drop (List.mem_of_mem_take hx))
  refine ⟨?_, ?_, ?_⟩
  · rw [hw]
    show (splitWs (spaceJoinL _)).length ≤ hard
    rw [splitWs_spaceJoinL _ hsub]
    simp [List.length_take]
  · intro ch hch
    rw [hw] at hch
    rcases spaceJoinL_mem _ ch hch with ⟨x, hx, hchx⟩ | rfl
    · intro hc
      have := (hsub x hx).2 ch hchx
      rw [hc] at this
      exact absurd this (by decide)
    · decide
  · rw [hr]
    refine List.IsPrefix.trans
      (show List.IsPrefix "Force-split oversized heading".data
          "Force-split oversized heading (".data from ⟨" (".data, by decide⟩) ?_
    simp only [String.data_append, List.append_assoc]
    exact List.prefix_append _ _

theorem window_count_split {hard : Nat} (hhard : 1 ≤ hard) {L : Nat} (hL : 1 ≤ L) :
    (L + hard - 1) / hard = ((L - hard + hard - 1) / hard) + 1 := by
  have key : ∀ M : Nat, 1 ≤ M → (M + hard - 1) / hard = (M - 1) / hard + 1 := by
    intro M hM
    rw [show M + hard - 1 = (M - 1) + hard from by omega, Nat.add_div_right _ (by omega)]
  rcases le_or_lt L hard with hle | hlt
  · rw [key L hL, Nat.div_eq_of_lt (by omega), show L - hard = 0 from by omega]
    rw [Nat.div_eq_of_lt (by omega)]
  · rw [key L hL, key (L - hard) (by omega),
      show L - 1 = (L - hard - 1) + hard from by omega, Nat.add_div_right _ (by omega),
      show L - hard - 1 = L - hard - 1 from rfl]

/-- The windows of an oversized paragraph partition its words: joining the
windows' word lists in order reproduces the paragraph's word list. -/
theorem windows_partition_words {hard : Nat} (hhard : 1 ≤ hard) (p : String) :
    ((((window_chunks p hard).map Prod.fst).map (fun w => splitWs w.data)).flatten) =
      splitWs p.data := by
  have main : ∀ (n : Nat) (ws : List (List Char)), ws.length ≤ n →
      ((List.range ((ws.length + hard - 1) / hard)).map
        (fun k => (ws.drop (k * hard)).take hard)).flatten = ws := by
    intro n
    induction n with
    | zero =>
      intro ws hlen
      have : ws = [] := List.eq_nil_of_length_eq_zero (Nat.le_zero.mp hlen)
      subst this
      have h0 : (([] : List (List Char)).length + hard - 1) / hard = 0 :=
        Nat.div_eq_of_lt (by simp; omega)
      simp [h0]
    | succ n ih =>
      intro ws hlen
      cases hws : ws with
      | nil =>
        have h0 : (([] : List (List Char)).length + hard - 1) / hard = 0 :=
          Nat.div_eq_of_lt (by simp; omega)
        simp [h0]
      | cons x t =>
        subst hws
        have hcount := window_count_split hhard
          (show 1 ≤ (x :: t).length from by simp)
        rw [hcount, List.range_succ_eq_map]
        simp only [List.map_cons, List.flatten_cons, Nat.zero_mul, List.drop_zero,
          List.map_map]
        have hdroplen : ((x :: t).drop hard).length = (x :: t).length - hard := by
          simp
        have hlen' : ((x :: t).drop hard).length ≤ n := by
          rw [hdroplen]
          simp only [List.length_cons] at hlen ⊢
          omega
        have hrest : ((List.range (((x :: t).length - hard + hard - 1) / hard)).map
            ((fun k => ((x :: t).drop (k * hard)).take hard) ∘ (fun k => k + 1))).flatten =
            (x :: t).drop hard := by
          have hih := ih ((x :: t).drop hard) hlen'
          rw [hdroplen] at hih
          rw [← hih]
          congr 1
          apply List.map_congr_left
          intro k _
          simp only [Function.comp]
          rw [show (k + 1) * hard = hard + k * hard from by ring]
          rw [← List.drop_drop]
        rw [hrest, List.take_append_drop]
  unfold window_chunks
  simp only [List.map_map]
  have hmaps : ((List.range (((splitWs p.data).length + hard - 1) / hard)).map
      ((fun w : String => splitWs w.data) ∘ Prod.fst ∘
        (fun k => (⟨spaceJoinL (((splitWs p.data).drop (k * hard)).take hard)⟩,
          "Force-split oversized heading (" ++ Nat.repr (k * hard) ++ "-" ++
          Nat.repr (min (k * hard + hard) (splitWs p.data).length) ++ " of " ++
          Nat.repr (splitWs p.data).length ++ " words)")))) =
      (List.range (((splitWs p.data).length + hard - 1) / hard)).map
        (fun k => ((splitWs p.data).drop (k * hard)).take hard) := by
    apply List.map_congr_left
    intro k _
    simp only [Function.comp]
    show splitWs (spaceJoinL (((splitWs p.data).drop (k * hard)).take hard)) = _
    refine splitWs_spaceJoinL _ ?_
    intro x hx
    exact splitWs_sound p.data x (List.mem_of_mem_drop (List.mem_of_mem_take hx))
  rw [hmaps]
  exact main (splitWs p.data).length (splitWs p.data) (Nat.le_refl _)

/-! ### Shape of the split paragraphs

A paragraph produced by `split_markdown_into_paragraphs` never contains the
separator `"\n\n"`, and no paragraph except possibly the last ends with a
newline (the greedy separator match would otherwise have started one
character earlier). -/

theorem hasNN_append_single (a : List Char) (c : Char) :
    hasNN (a ++ [c]) = (hasNN a || (endsNL a && c = '\n')) := by
  induction a with
  | nil => simp [hasNN, endsNL]
  | cons d t ih =>
    cases t with
    | nil => simp [hasNN, endsNL]
    | cons e rest =>
      have h1 : hasNN ((d :: e :: rest) ++ [c]) =
          ((d = '\n' && e = '\n') || hasNN ((e :: rest) ++ [c])) := rfl
      have h2 : hasNN (d :: e :: rest) =
          ((d = '\n' && e = '\n') || hasNN (e :: rest)) := rfl
      have h3 : endsNL (d :: e :: rest) = endsNL (e :: rest) := rfl
      rw [h1, ih, h2, h3, Bool.or_assoc]

theorem endsNL_append_single (a : List Char) (c : Char) :
    endsNL (a ++ [c]) = decide (c = '\n') := by
  induction a with
  | nil => rfl
  | cons d t ih =>
    cases t with
    | nil => rfl
    | cons e rest =>
      show endsNL (d :: e :: (rest ++ [c])) = _
      rw [endsNL_cons_cons, show (e :: (rest ++ [c])) = (e :: rest) ++ [c] from rfl, ih]

theorem paraSplitF_succ_cons (f : Nat) (c : Char) (cs acc : List Char) :
    paraSplitF (f + 1) (c :: cs) acc =
      if c = '\n' then
        match lastNl (cs.takeWhile pySpace) with
        | some j => acc :: paraSplitF f (cs.drop (j + 1)) []
        | none => paraSplitF f cs (acc ++ [c])
      else paraSplitF f cs (acc ++ [c]) := rfl

theorem lastNl_cons_nl (xs : List Char) : lastNl ('\n' :: xs) ≠ none := by
  show (match lastNl xs with
    | some j => some (j + 1)
    | none => if '\n' = '\n' then some 0 else none) ≠ none
  cases lastNl xs <;> simp

theorem paraSplitF_ne_nil : ∀ (fuel : Nat) (l acc : List Char),
    paraSplitF fuel l acc ≠ [] := by
  intro fuel
  induction fuel with
  | zero =>
    intro l acc
    cases l <;> simp [paraSplitF]
  | succ f ih =>
    intro l acc
    cases l with
    | nil => simp [paraSplitF]
    | cons c cs =>
      rw [paraSplitF_succ_cons]
      split
      · cases h : lastNl (cs.takeWhile pySpace) with
        | some j => simp
        | none => simpa using ih cs (acc ++ [c])
      · simpa using ih cs (acc ++ [c])

theorem paraSplitF_pieces :
    ∀ (fuel : Nat) (l acc : List Char), l.length ≤ fuel →
      hasNN acc = false → (endsNL acc = true → l.head? ≠ some '\n') →
      (∀ piece ∈ paraSplitF fuel l acc, hasNN piece = false) ∧
      (∀ piece ∈ (paraSplitF fuel l acc).dropLast, endsNL piece = false) := by
  intro fuel
  induction fuel with
  | zero =>
    intro l acc hlen hNN _
    have : l = [] := List.eq_nil_of_length_eq_zero (Nat.le_zero.mp hlen)
    subst this
    constructor
    · intro piece hp
      rw [show paraSplitF 0 [] acc = [acc] from rfl] at hp
      rcases List.mem_singleton.mp hp with rfl
      exact hNN
    · intro piece hp
      rw [show paraSplitF 0 [] acc = [acc] from rfl] at hp
      exact absurd hp (by simp)
  | succ f ih =>
    intro l acc hlen hNN hNL
    cases l with
    | nil =>
      constructor
      · intro piece hp
        rw [show paraSplitF (f + 1) [] acc = [acc] from rfl] at hp
        rcases List.mem_singleton.mp hp with rfl
        exact hNN
      · intro piece hp
        rw [show paraSplitF (f + 1) [] acc = [acc] from rfl] at hp
        exact absurd hp (by simp)
    | cons c cs =>
      by_cases hc : c = '\n'
      · subst hc
        have haccNL : endsNL acc = false := by
          cases h : endsNL acc
          · rfl
          · exact absurd rfl (hNL h)
        rw [paraSplitF_succ_cons, if_pos rfl]
        cases hlast : lastNl (cs.takeWhile pySpace) with
        | some j =>
          have hrec := ih (cs.drop (j + 1)) []
            (by simp only [List.length_cons] at hlen; simp [List.length_drop]; omega)
            rfl (by simp [endsNL])
          constructor
          · intro piece hp
            rcases List.mem_cons.mp hp with rfl | hp
            · exact hNN
            · exact hrec.1 piece hp
          · intro piece hp
            rw [List.dropLast_cons_of_ne_nil (paraSplitF_ne_nil f _ [])] at hp
            rcases List.mem_cons.mp hp with rfl | hp
            · exact haccNL
            · exact hrec.2 piece hp
        | none =>
          have hcs : cs.head? ≠ some '\n' := by
            intro hhead
            cases cs with
            | nil => simp at hhead
            | cons d t =>
              simp only [List.head?] at hhead
              rcases Option.some.inj hhead with rfl
              rw [show ('\n' :: t).takeWhile pySpace = '\n' :: t.takeWhile pySpace from by
                rw [List.takeWhile_cons, if_pos (by decide)]] at hlast
              exact lastNl_cons_nl _ hlast
          refine ih cs (acc ++ ['\n'])
            (by simp only [List.length_cons] at hlen; omega) ?_ ?_
          · rw [hasNN_append_single, hNN, haccNL]
            rfl
          · intro hend
            exact hcs
      · rw [paraSplitF_succ_cons, if_neg hc]
        refine ih cs (acc ++ [c])
          (by simp only [List.length_cons] at hlen; omega) ?_ ?_
        · rw [hasNN_append_single, hNN]
          simp [hc]
        · rw [endsNL_append_single]
          intro hend
          exact absurd (of_decide_eq_true hend) hc

theorem split_markdown_hasNN (text : String) :
    ∀ p ∈ split_markdown_into_paragraphs text, hasNN p.data = false := by
  intro p hp
  unfold split_markdown_into_paragraphs at hp
  rcases List.mem_map.mp hp with ⟨piece, hpiece, rfl⟩
  exact (paraSplitF_pieces text.data.length text.data [] (Nat.le_refl _) rfl
    (by simp [endsNL])).1 piece hpiece

theorem split_markdown_endsNL (text : String) :
    ∀ k, k + 1 < (split_markdown_into_paragraphs text).length →
      endsNL (pget (split_markdown_into_paragraphs text) k).data = false := by
  intro k hk
  have hmem : pget (split_markdown_into_paragraphs text) k ∈
      (split_markdown_into_paragraphs text).dropLast := by
    unfold pget
    have hklt : k < (split_markdown_into_paragraphs text).length := by omega
    rw [List.getD_eq_getElem?_getD, List.getElem?_eq_getElem hklt]
    have hk' : k < (split_markdown_into_paragraphs text).dropLast.length := by
      rw [List.length_dropLast]; omega
    rw [show (split_markdown_into_paragraphs text)[k] =
        (split_markdown_into_paragraphs text).dropLast[k] from
      (List.getElem_dropLast _ _ hk').symm]
    exact List.getElem_mem hk'
  unfold split_markdown_into_paragraphs at hmem
  rw [← List.map_dropLast] at hmem
  rcases List.mem_map.mp hmem with ⟨piece, hpiece, heq⟩
  show endsNL (pget (List.map String.mk (paraSplitF text.data.length text.data [])) k).data
    = false
  rw [← heq]
  exact (paraSplitF_pieces text.data.length text.data [] (Nat.le_refl _) rfl
    (by simp [endsNL])).2 piece hpiece

/-! ### The reconstruction relation

`Recon hard input output` says that `output` is obtained from `input` by
keeping paragraphs in order, dropping only page-break paragraphs, and
replacing an oversized heading by its force-split windows.  `ReconNF` is
the fragment without the window case (it relates the consumed input
suffix to the pending-headings buffer). -/

inductive Recon (hard : Nat) : List String → List String → Prop
  | nil : Recon hard [] []
  | keep (p : String) {ps out : List String} :
      Recon hard ps out → Recon hard (p :: ps) (p :: out)
  | drop {p : String} {ps out : List String} :
      is_page_break p = true → Recon hard ps out → Recon hard (p :: ps) out
  | fsplit {p : String} {ps out : List String} :
      is_heading p = true → hard < get_token_count p → Recon hard ps out →
      Recon hard (p :: ps) ((window_chunks p hard).map Prod.fst ++ out)

inductive ReconNF : List String → List String → Prop
  | nil : ReconNF [] []
  | keep (p : String) {ps out : List String} :
      ReconNF ps out → ReconNF (p :: ps) (p :: out)
  | drop {p : String} {ps out : List String} :
      is_page_break p = true → ReconNF ps out → ReconNF (p :: ps) out

theorem Recon.append {hard : Nat} {a b c d : List String}
    (h1 : Recon hard a b) (h2 : Recon hard c d) : Recon hard (a ++ c) (b ++ d) := by
  induction h1 with
  | nil => exact h2
  | keep p _ ih => exact Recon.keep p ih
  | drop hpb _ ih => exact Recon.drop hpb ih
  | fsplit hh ht _ ih =>
    rw [List.append_assoc]
    exact Recon.fsplit hh ht ih

theorem Recon.ofAll {hard : Nat} : ∀ l : List String, Recon hard l l := by
  intro l
  induction l with
  | nil => exact Recon.nil
  | cons p t ih => exact Recon.keep p ih

theorem Recon.dropAll {hard : Nat} :
    ∀ {l : List String}, (∀ q ∈ l, is_page_break q = true) → Recon hard l [] := by
  intro l
  induction l with
  | nil => exact fun _ => Recon.nil
  | cons p t ih =>
    intro h
    exact Recon.drop (h p (List.mem_cons_self p t)) (ih (fun q hq => h q (List.mem_cons_of_mem p hq)))

theorem ReconNF.toRecon {hard : Nat} : ∀ {a b : List String}, ReconNF a b → Recon hard a b := by
  intro a b h
  induction h with
  | nil => exact Recon.nil
  | keep p _ ih => exact Recon.keep p ih
  | drop hpb _ ih => exact Recon.drop hpb ih

theorem ReconNF.appendNF {a b c d : List String}
    (h1 : ReconNF a b) (h2 : ReconNF c d) : ReconNF (a ++ c) (b ++ d) := by
  induction h1 with
  | nil => exact h2
  | keep p _ ih => exact ReconNF.keep p ih
  | drop hpb _ ih => exact ReconNF.drop hpb ih

theorem ReconNF.ofAllNF : ∀ l : List String, ReconNF l l := by
  intro l
  induction l with
  | nil => exact ReconNF.nil
  | cons p t ih => exact ReconNF.keep p ih

theorem ReconNF.mem_out : ∀ {a b : List String}, ReconNF a b → ∀ q ∈ b, q ∈ a := by
  intro a b h
  induction h with
  | nil => intro q hq; exact absurd hq (List.not_mem_nil q)
  | keep p _ ih =>
    intro q hq
    rcases List.mem_cons.mp hq with rfl | hq
    · exact List.mem_cons_self _ _
    · exact List.mem_cons_of_mem p (ih q hq)
  | drop _ _ ih =>
    intro q hq
    exact List.mem_cons_of_mem _ (ih q hq)

theorem ReconNF.dropOut {hard : Nat} {a b : List String} (h : ReconNF a b)
    (hpb : ∀ q ∈ b, is_page_break q = true) : Recon hard a [] := by
  induction h with
  | nil => exact Recon.nil
  | keep p hr ih =>
    exact Recon.drop (hpb p (List.mem_cons_self p _))
      (ih (fun q hq => hpb q (List.mem_cons_of_mem p hq)))
  | drop hp _ ih => exact Recon.drop hp (ih hpb)

theorem ReconNF.out_nil_iff {a b : List String} (h : ReconNF a b) :
    b = [] → ∀ q ∈ a, is_page_break q = true := by
  induction h with
  | nil => intro _ q hq; exact absurd hq (List.not_mem_nil q)
  | keep p _ _ => intro h; exact absurd h (by simp)
  | drop hp _ ih =>
    intro hb q hq
    rcases List.mem_cons.mp hq with rfl | hq
    · exact hp
    · exact ih hb q hq

theorem ReconNF.ne_nil {a b : List String} (h : ReconNF a b) (hb : b ≠ []) : a ≠ [] := by
  cases h with
  | nil => exact absurd rfl hb
  | keep p _ => simp
  | drop _ _ => simp

/-! ### Specifications of the collection loops -/

theorem pget_eq {paras : List String} {i : Nat} (h : i < paras.length) :
    pget paras i = paras[i] := by
  unfold pget
  rw [List.getD_eq_getElem?_getD, List.getElem?_eq_getElem h]
  rfl

theorem sumT_nil : sumT [] = 0 := rfl

theorem sumT_cons (p : String) (ps : List String) :
    sumT (p :: ps) = get_token_count p + sumT ps := by
  unfold sumT
  simp

theorem sumT_append (a b : List String) : sumT (a ++ b) = sumT a + sumT b := by
  unfold sumT
  simp

theorem drop_cons_pget {paras : List String} {i : Nat} (h : i < paras.length) :
    paras.drop i = pget paras i :: paras.drop (i + 1) := by
  rw [pget_eq h]
  exact List.drop_eq_getElem_cons h

theorem nonHeadCollectF_spec (paras : List String) (hard : Nat) :
    ∀ (fuel i tok : Nat) (acc : List String),
      paras.length - i ≤ fuel → i ≤ paras.length →
      ∃ i' : Nat,
        nonHeadCollectF paras hard fuel i tok acc =
          (i', tok + sumT ((paras.drop i).take (i' - i)),
            acc ++ (paras.drop i).take (i' - i)) ∧
        i ≤ i' ∧ i' ≤ paras.length ∧
        (tok ≤ hard → tok + sumT ((paras.drop i).take (i' - i)) ≤ hard) := by
  intro fuel
  induction fuel with
  | zero =>
    intro i tok acc hfuel hle
    refine ⟨i, ?_, Nat.le_refl i, hle, ?_⟩
    · show (i, tok, acc) = _
      simp [sumT_nil]
    · intro h
      simpa [sumT_nil] using h
  | succ f ih =>
    intro i tok acc hfuel hle
    rw [show nonHeadCollectF paras hard (f + 1) i tok acc =
        (if i < paras.length then
          let p := pget paras i
          if is_heading p then (i, tok, acc)
          else if hard < tok + get_token_count p then (i, tok, acc)
          else nonHeadCollectF paras hard f (i + 1) (tok + get_token_count p) (acc ++ [p])
        else (i, tok, acc)) from rfl]
    by_cases hi : i < paras.length
    · rw [if_pos hi]
      simp only
      by_cases hh : is_heading (pget paras i) = true
      · rw [if_pos hh]
        exact ⟨i, by simp [sumT_nil], Nat.le_refl i, hle, fun h => by simpa [sumT_nil] using h⟩
      · rw [if_neg hh]
        by_cases hov : hard < tok + get_token_count (pget paras i)
        · rw [if_pos hov]
          exact ⟨i, by simp [sumT_nil], Nat.le_refl i, hle,
            fun h => by simpa [sumT_nil] using h⟩
        · rw [if_neg hov]
          obtain ⟨i', heq, hge, hle', hbound⟩ :=
            ih (i + 1) (tok + get_token_count (pget paras i)) (acc ++ [pget paras i])
              (by omega) (by omega)
          refine ⟨i', ?_, by omega, hle', ?_⟩
          · rw [heq]
            have hslice : (paras.drop i).take (i' - i) =
                pget paras i :: (paras.drop (i + 1)).take (i' - (i + 1)) := by
              rw [drop_cons_pget hi]
              rw [show i' - i = (i' - (i + 1)) + 1 from by omega]
              rfl
            rw [hslice, sumT_cons]
            simp [Nat.add_assoc]
          · intro htok
            have hslice : (paras.drop i).take (i' - i) =
                pget paras i :: (paras.drop (i + 1)).take (i' - (i + 1)) := by
              rw [drop_cons_pget hi]
              rw [show i' - i = (i' - (i + 1)) + 1 from by omega]
              rfl
            rw [hslice, sumT_cons]
            have := hbound (by omega)
            omega
    · rw [if_neg hi]
      exact ⟨i, by simp [sumT_nil], Nat.le_refl i, hle, fun h => by simpa [sumT_nil] using h⟩

theorem headCollectF_spec (paras : List String) (hard major : Nat) :
    ∀ (fuel i tok : Nat) (acc : List String),
      paras.length - i ≤ fuel → i ≤ paras.length →
      ∃ i' : Nat,
        headCollectF paras hard major fuel i tok acc =
          (i', tok + sumT ((paras.drop i).take (i' - i)),
            acc ++ (paras.drop i).take (i' - i)) ∧
        i ≤ i' ∧ i' ≤ paras.length ∧
        (tok ≤ hard → tok + sumT ((paras.drop i).take (i' - i)) ≤ hard) := by
  intro fuel
  induction fuel with
  | zero =>
    intro i tok acc hfuel hle
    refine ⟨i, ?_, Nat.le_refl i, hle, ?_⟩
    · show (i, tok, acc) = _
      simp [sumT_nil]
    · intro h
      simpa [sumT_nil] using h
  | succ f ih =>
    intro i tok acc hfuel hle
    rw [show headCollectF paras hard major (f + 1) i tok acc =
        (if i < paras.length then
          let p := pget paras i
          if is_heading p ∧ get_heading_level p ≤ major then (i, tok, acc)
          else if hard < tok + get_token_count p then (i, tok, acc)
          else headCollectF paras hard major f (i + 1) (tok + get_token_count p) (acc ++ [p])
        else (i, tok, acc)) from rfl]
    by_cases hi : i < paras.length
    · rw [if_pos hi]
      simp only
      by_cases hh : is_heading (pget paras i) = true ∧
          get_heading_level (pget paras i) ≤ major
      · rw [if_pos hh]
        exact ⟨i, by simp [sumT_nil], Nat.le_refl i, hle, fun h => by simpa [sumT_nil] using h⟩
      · rw [if_neg hh]
        by_cases hov : hard < tok + get_token_count (pget paras i)
        · rw [if_pos hov]
          exact ⟨i, by simp [sumT_nil], Nat.le_refl i, hle,
            fun h => by simpa [sumT_nil] using h⟩
        · rw [if_neg hov]
          obtain ⟨i', heq, hge, hle', hbound⟩ :=
            ih (i + 1) (tok + get_token_count (pget paras i)) (acc ++ [pget paras i])
              (by omega) (by omega)
          refine ⟨i', ?_, by omega, hle', ?_⟩
          · rw [heq]
            have hslice : (paras.drop i).take (i' - i) =
                pget paras i :: (paras.drop (i + 1)).take (i' - (i + 1)) := by
              rw [drop_cons_pget hi]
              rw [show i' - i = (i' - (i + 1)) + 1 from by omega]
              rfl
            rw [hslice, sumT_cons]
            simp [Nat.add_assoc]
          · intro htok
            have hslice : (paras.drop i).take (i' - i) =
                pget paras i :: (paras.drop (i + 1)).take (i' - (i + 1)) := by
              rw [drop_cons_pget hi]
              rw [show i' - i = (i' - (i + 1)) + 1 from by omega]
              rfl
            rw [hslice, sumT_cons]
            have := hbound (by omega)
            omega
    · rw [if_neg hi]
      exact ⟨i, by simp [sumT_nil], Nat.le_refl i, hle, fun h => by simpa [sumT_nil] using h⟩

theorem tableLoopF_succ (paras : List String) (hard f i tok : Nat) (acc : List String)
    (groups : Nat) :
    tableLoopF paras hard (f + 1) i tok acc groups =
      if i < paras.length ∧ groups < 2 then
        if is_heading (pget paras i) ∧ i + 1 < paras.length ∧
            is_table (pget paras (i + 1)) then
          let gt := get_token_count (pget paras i) + get_token_count (pget paras (i + 1))
          if hard < tok + gt ∧ acc ≠ [] then (i, tok, acc, groups)
          else tableLoopF paras hard f (i + 2) (tok + gt)
            (acc ++ [pget paras i, pget paras (i + 1)]) (groups + 1)
        else (i, tok, acc, groups)
      else (i, tok, acc, groups) := rfl

/-- The table-grouping loop, entered from the heading branch: it admits one
or two (heading, table) pairs of consecutive paragraphs; the accumulated
token count either respects the hard limit or the accumulator is the single
first pair, which was admitted unconditionally. -/
theorem tableLoop_spec (paras : List String) (hard i : Nat)
    (hh : is_heading (pget paras i) = true) (hi1 : i + 1 < paras.length)
    (ht : is_table (pget paras (i + 1)) = true) :
    ∃ i' g : Nat,
      tableLoop paras hard i 0 [] 0 =
        (i', sumT ((paras.drop i).take (i' - i)), (paras.drop i).take (i' - i), g) ∧
      i ≤ i' ∧ i' ≤ paras.length ∧
      (sumT ((paras.drop i).take (i' - i)) ≤ hard ∨
        ∃ h t : String, (paras.drop i).take (i' - i) = [h, t] ∧
          is_heading h = true ∧ is_table t = true) := by
  have hi : i < paras.length := by omega
  have hslice2 : (paras.drop i).take 2 = [pget paras i, pget paras (i + 1)] := by
    rw [drop_cons_pget hi, List.take_succ_cons, drop_cons_pget hi1, List.take_succ_cons]
    rfl
  have hpair1 : ∃ g : Nat,
      tableLoop paras hard i 0 [] 0 = tableLoopF paras hard 1 (i + 2)
        (get_token_count (pget paras i) + get_token_count (pget paras (i + 1)))
        [pget paras i, pget paras (i + 1)] 1 := by
    refine ⟨1, ?_⟩
    show tableLoopF paras hard 2 i 0 [] 0 = _
    rw [tableLoopF_succ, if_pos ⟨hi, by omega⟩, if_pos ⟨hh, hi1, ht⟩]
    simp
  obtain ⟨_, heq1⟩ := hpair1
  set gt1 := get_token_count (pget paras i) + get_token_count (pget paras (i + 1)) with hgt1
  have hstop : ∀ hstop_i' : Nat, hstop_i' = i + 2 →
      (hstop_i', gt1, [pget paras i, pget paras (i + 1)], 1) =
        (hstop_i', sumT ((paras.drop i).take (hstop_i' - i)),
          (paras.drop i).take (hstop_i' - i), 1) := by
    intro j hj
    subst hj
    rw [show i + 2 - i = 2 from by omega, hslice2]
    rw [sumT_cons, sumT_cons, sumT_nil]
    simp [hgt1]
  rw [heq1]
  rw [tableLoopF_succ]
  by_cases hg2 : i + 2 < paras.length
  · rw [if_pos ⟨hg2, by omega⟩]
    by_cases hpat : is_heading (pget paras (i + 2)) = true ∧ i + 2 + 1 < paras.length ∧
        is_table (pget paras (i + 2 + 1)) = true
    · rw [if_pos hpat]
      simp only
      set gt2 := get_token_count (pget paras (i + 2)) +
        get_token_count (pget paras (i + 2 + 1)) with hgt2
      by_cases hov : hard < gt1 + gt2
      · rw [if_pos ⟨hov, by simp⟩]
        refine ⟨i + 2, 1, ?_, by omega, by omega, ?_⟩
        · exact hstop (i + 2) rfl
        · right
          refine ⟨pget paras i, pget paras (i + 1), ?_, hh, ht⟩
          rw [show i + 2 - i = 2 from by omega, hslice2]
      · rw [if_neg (by intro hcon; exact hov hcon.1)]
        have hi3 : i + 2 + 1 < paras.length := hpat.2.1
        have hslice4 : (paras.drop i).take 4 =
            [pget paras i, pget paras (i + 1), pget paras (i + 2), pget paras (i + 3)] := by
          rw [drop_cons_pget hi, List.take_succ_cons, drop_cons_pget hi1,
            List.take_succ_cons, drop_cons_pget hg2, List.take_succ_cons,
            drop_cons_pget (show i + 3 < paras.length from by omega), List.take_succ_cons]
          rfl
        refine ⟨i + 4, 2, ?_, by omega, by omega, ?_⟩
        · show (i + 4, gt1 + gt2, [pget paras i, pget paras (i + 1)] ++
              [pget paras (i + 2), pget paras (i + 2 + 1)], 2) = _
          rw [show i + 4 - i = 4 from by omega, hslice4]
          rw [sumT_cons, sumT_cons, sumT_cons, sumT_cons, sumT_nil]
          rw [show i + 2 + 1 = i + 3 from by omega]
          simp [hgt1, hgt2]
          ring
        · left
          rw [show i + 4 - i = 4 from by omega, hslice4]
          rw [sumT_cons, sumT_cons, sumT_cons, sumT_cons, sumT_nil]
          rw [hgt1, hgt2] at hov
          rw [show i + 2 + 1 = i + 3 from by omega] at hov
          omega
    · rw [if_neg hpat]
      refine ⟨i + 2, 1, hstop (i + 2) rfl, by omega, by omega, ?_⟩
      right
      refine ⟨pget paras i, pget paras (i + 1), ?_, hh, ht⟩
      rw [show i + 2 - i = 2 from by omega, hslice2]
  · rw [if_neg (by intro hcon; exact hg2 hcon.1)]
    refine ⟨i + 2, 1, hstop (i + 2) rfl, by omega, by omega, ?_⟩
    right
    refine ⟨pget paras i, pget paras (i + 1), ?_, hh, ht⟩
    rw [show i + 2 - i = 2 from by omega, hslice2]

/-! ### The loop invariant -/

/-- Every chunk the machine has emitted, together with its reason string,
satisfies: it is a non-empty paragraph list; no paragraph contains the
separator; no paragraph but the last ends in a newline; if it consists
solely of page breaks its reason identifies a force-split window; and it
decomposes into merged-heading prefix/suffix around a core that respects
the hard limit or is a single unconditionally admitted (heading, table)
pair. -/
def GoodChunk (hard : Nat) (ps : List String) (r : String) : Prop :=
  ps ≠ [] ∧
  (∀ p ∈ ps, hasNN p.data = false) ∧
  (∀ p ∈ ps.dropLast, endsNL p.data = false) ∧
  ((∀ q ∈ ps, is_page_break q = true) →
    List.IsPrefix "Force-split oversized heading".data r.data) ∧
  (∃ pre core post : List String, ps = pre ++ core ++ post ∧
    (∀ q ∈ pre, is_heading q = true) ∧ (∀ q ∈ post, is_heading q = true) ∧
    (sumT core ≤ hard ∨
      ∃ h t : String, core = [h, t] ∧ is_heading h = true ∧ is_table t = true))

/-- The machine invariant: the emitted chunks are joins of good ghost
paragraph lists; the consumed prefix of the paragraph sequence splits into
a part reconstructed by the chunks (`Recon`) and a part reconstructed by
the pending buffer (`ReconNF`); the pending buffer holds only headings and
well-shaped paragraphs. -/
def stInv (paras : List String) (hard : Nat) (s : ChunkSt) : Prop :=
  s.i ≤ paras.length ∧
  ∃ (gss : List (List String × String)) (xs1 xs2 : List String),
    s.chunks = gss.map (fun g => (joinNN g.1, g.2)) ∧
    (∀ g ∈ gss, GoodChunk hard g.1 g.2) ∧
    (s.pending ≠ [] → ∀ g ∈ gss, ∀ p ∈ g.1, endsNL p.data = false) ∧
    (s.i < paras.length → ∀ g ∈ gss, ∀ p ∈ g.1, endsNL p.data = false) ∧
    paras.take s.i = xs1 ++ xs2 ∧
    Recon hard xs1 ((gss.map Prod.fst).flatten) ∧
    ReconNF xs2 s.pending ∧
    (∀ p ∈ s.pending, is_heading p = true) ∧
    (∀ p ∈ s.pending, hasNN p.data = false) ∧
    (s.i < paras.length → ∀ p ∈ s.pending, endsNL p.data = false) ∧
    (∀ p ∈ s.pending.dropLast, endsNL p.data = false)

theorem slice_mem_index {paras : List String} {i m : Nat} {p : String}
    (h : p ∈ (paras.drop i).take m) :
    ∃ j, j < m ∧ i + j < paras.length ∧ p = pget paras (i + j) := by
  obtain ⟨j, hj, hp⟩ := List.getElem_of_mem h
  have hj' : j < m ∧ j < paras.length - i := by
    simpa [List.length_take, List.length_drop, Nat.lt_min] using hj
  have hij : i + j < paras.length := by omega
  refine ⟨j, hj'.1, hij, ?_⟩
  rw [pget_eq hij]
  rw [← hp]
  rw [List.getElem_take, List.getElem_drop]

theorem slice_dropLast_index {paras : List String} {i m : Nat} {p : String}
    (h : p ∈ ((paras.drop i).take m).dropLast) :
    ∃ j, i + j + 1 < paras.length ∧ p = pget paras (i + j) := by
  obtain ⟨j, hj, hp⟩ := List.getElem_of_mem h
  have hlen : ((paras.drop i).take m).dropLast.length =
      ((paras.drop i).take m).length - 1 := List.length_dropLast _
  have hjlt : j + 1 < ((paras.drop i).take m).length := by
    rw [hlen] at hj; omega
  have hble : ((paras.drop i).take m).length ≤ paras.length - i := by
    rw [List.length_take, List.length_drop]
    exact Nat.min_le_right _ _
  have hij : i + j + 1 < paras.length := by omega
  refine ⟨j, hij, ?_⟩
  rw [pget_eq (by omega : i + j < paras.length)]
  rw [← hp]
  rw [List.getElem_dropLast, List.getElem_take, List.getElem_drop]

theorem slice_mem_paras {paras : List String} {i m : Nat} {p : String}
    (h : p ∈ (paras.drop i).take m) : p ∈ paras :=
  List.mem_of_mem_drop (List.mem_of_mem_take h)

/-! ### Branch equations for one iteration -/

theorem stepIter_skip {paras : List String} {hard : Nat} {s : ChunkSt}
    (h : is_page_break (pget paras s.i) = true ∧ s.i + 1 < paras.length ∧
      is_list_item (pget paras (s.i + 1)) = true) :
    stepIter paras hard s = { s with i := s.i + 1 } := by
  unfold stepIter
  rw [if_pos h]

theorem stepIter_fsplit {paras : List String} {hard : Nat} {s : ChunkSt}
    (hnskip : ¬ (is_page_break (pget paras s.i) = true ∧ s.i + 1 < paras.length ∧
      is_list_item (pget paras (s.i + 1)) = true))
    (hh : is_heading (pget paras s.i) = true)
    (hov : hard < get_token_count (pget paras s.i)) :
    stepIter paras hard s =
      { i := s.i + 1, pending := [],
        chunks := (if s.pending ≠ [] ∧ ¬(∀ q ∈ s.pending, is_page_break q = true) then
            s.chunks ++ [(joinNN s.pending,
              "Flushing pending headings before oversized heading")]
          else s.chunks) ++ window_chunks (pget paras s.i) hard } := by
  unfold stepIter
  rw [if_neg hnskip, if_pos hh, if_pos hov]

theorem stepIter_table {paras : List String} {hard : Nat} {s : ChunkSt}
    (hnskip : ¬ (is_page_break (pget paras s.i) = true ∧ s.i + 1 < paras.length ∧
      is_list_item (pget paras (s.i + 1)) = true))
    (hh : is_heading (pget paras s.i) = true)
    (hnov : ¬ hard < get_token_count (pget paras s.i))
    (htab : s.i + 1 < paras.length ∧ is_table (pget paras (s.i + 1)) = true) :
    stepIter paras hard s =
      { i := (tableLoop paras hard s.i 0 [] 0).1, pending := [],
        chunks :=
          if s.pending ++ (tableLoop paras hard s.i 0 [] 0).2.2.1 ≠ [] ∧
              ¬(∀ q ∈ s.pending ++ (tableLoop paras hard s.i 0 [] 0).2.2.1,
                is_page_break q = true) then
            s.chunks ++ [(joinNN (s.pending ++ (tableLoop paras hard s.i 0 [] 0).2.2.1),
              "Table chunk with " ++ Nat.repr (tableLoop paras hard s.i 0 [] 0).2.2.2 ++
                " table group(s), " ++ Nat.repr (tableLoop paras hard s.i 0 [] 0).2.1 ++
                " tokens")]
          else s.chunks } := by
  unfold stepIter
  rw [if_neg hnskip, if_pos hh, if_neg hnov, if_pos htab]

theorem stepIter_headcollect {paras : List String} {hard : Nat} {s : ChunkSt}
    (hnskip : ¬ (is_page_break (pget paras s.i) = true ∧ s.i + 1 < paras.length ∧
      is_list_item (pget paras (s.i + 1)) = true))
    (hh : is_heading (pget paras s.i) = true)
    (hnov : ¬ hard < get_token_count (pget paras s.i))
    (hntab : ¬ (s.i + 1 < paras.length ∧ is_table (pget paras (s.i + 1)) = true)) :
    stepIter paras hard s =
      (let r := headCollect paras hard (get_heading_level (pget paras s.i)) (s.i + 1)
        (get_token_count (pget paras s.i)) [pget paras s.i]
       let acc := r.2.2
       if (∀ q ∈ acc, is_heading q = true) ∧ 1 ≤ acc.length ∧ acc.length ≤ 6 then
         { i := r.1, pending := s.pending ++ acc, chunks := s.chunks }
       else
         let merged := s.pending ++ acc
         let reason :=
           if ∀ q ∈ acc, is_heading q = true then
             "Heading group with " ++ Nat.repr merged.length ++ " headings, " ++
               Nat.repr r.2.1 ++ " tokens"
           else
             "Content under heading level " ++
               Nat.repr (get_heading_level (pget paras s.i)) ++ ", " ++
               Nat.repr r.2.1 ++ " tokens"
         let chunks' :=
           if merged ≠ [] ∧ ¬(∀ q ∈ merged, is_page_break q = true) then
             s.chunks ++ [(joinNN merged, reason)]
           else s.chunks
         { i := r.1, pending := [], chunks := chunks' }) := by
  unfold stepIter
  rw [if_neg hnskip, if_pos hh, if_neg hnov, if_neg hntab]

theorem stepIter_nonhead {paras : List String} {hard : Nat} {s : ChunkSt}
    (hnskip : ¬ (is_page_break (pget paras s.i) = true ∧ s.i + 1 < paras.length ∧
      is_list_item (pget paras (s.i + 1)) = true))
    (hnh : ¬ is_heading (pget paras s.i) = true) :
    stepIter paras hard s =
      (let r := nonHeadCollect paras hard s.i 0 []
       let merged := s.pending ++ r.2.2
       if merged ≠ [] ∧ (∀ q ∈ merged, is_heading q = true) ∧ 1 ≤ merged.length ∧
           merged.length ≤ 6 then
         { i := r.1, pending := merged, chunks := s.chunks }
       else
         { i := r.1, pending := [],
           chunks :=
             if merged ≠ [] ∧ ¬(∀ q ∈ merged, is_page_break q = true) then
               s.chunks ++ [(joinNN merged,
                 "Non-heading content, " ++ Nat.repr r.2.1 ++ " tokens")]
             else s.chunks }) := by
  unfold stepIter
  rw [if_neg hnskip, if_neg hnh]

/-! ### Helpers for the preservation proof -/

theorem take_slice (paras : List String) {i i' : Nat} (h : i ≤ i') :
    paras.take i' = paras.take i ++ (paras.drop i).take (i' - i) := by
  rw [show i' = i + (i' - i) from by omega, List.take_add]
  congr 2
  omega

theorem take_succ_pget {paras : List String} {i : Nat} (h : i < paras.length) :
    paras.take (i + 1) = paras.take i ++ [pget paras i] := by
  rw [take_slice paras (show i ≤ i + 1 from by omega)]
  rw [show i + 1 - i = 1 from by omega]
  rw [drop_cons_pget h]
  rfl

theorem flatten_singletons (l : List (String × String)) :
    ((l.map (fun c => ([c.1], c.2))).map Prod.fst).flatten = l.map Prod.fst := by
  induction l with
  | nil => rfl
  | cons c t ih =>
    simp only [List.map_cons, List.flatten_cons]
    rw [ih]
    rfl

theorem map_join_singletons (l : List (String × String)) :
    (l.map (fun c => (([c.1], c.2) : List String × String))).map
      (fun g => (joinNN g.1, g.2)) = l := by
  induction l with
  | nil => rfl
  | cons c t ih => simp [ih, joinNN_singleton]

theorem slice_hasNN {paras : List String}
    (hNNg : ∀ p ∈ paras, hasNN p.data = false) {i m : Nat} :
    ∀ p ∈ (paras.drop i).take m, hasNN p.data = false :=
  fun p hp => hNNg p (slice_mem_paras hp)

theorem slice_endsNL_all {paras : List String}
    (hNLg : ∀ k, k + 1 < paras.length → endsNL (pget paras k).data = false)
    {i i' : Nat} (hlt : i' < paras.length) :
    ∀ p ∈ (paras.drop i).take (i' - i), endsNL p.data = false := by
  intro p hp
  obtain ⟨j, hj, hjlt, rfl⟩ := slice_mem_index hp
  exact hNLg (i + j) (by omega)

theorem slice_dropLast_endsNL {paras : List String}
    (hNLg : ∀ k, k + 1 < paras.length → endsNL (pget paras k).data = false)
    {i m : Nat} :
    ∀ p ∈ ((paras.drop i).take m).dropLast, endsNL p.data = false := by
  intro p hp
  obtain ⟨j, hjlt, rfl⟩ := slice_dropLast_index hp
  exact hNLg (i + j) hjlt

/-- A chunk emitted as merged pending headings plus a freshly collected
slice is good, provided the emission guard held and the slice respects the
size disjunct. -/
theorem GoodChunk_emit {hard : Nat} {paras : List String}
    (hNNg : ∀ p ∈ paras, hasNN p.data = false)
    (hNLg : ∀ k, k + 1 < paras.length → endsNL (pget paras k).data = false)
    {pending : List String} {i i' : Nat} {r : String}
    (hpendH : ∀ p ∈ pending, is_heading p = true)
    (hpendNN : ∀ p ∈ pending, hasNN p.data = false)
    (hpendNL : ∀ p ∈ pending, endsNL p.data = false)
    (hpendDL : ∀ p ∈ pending.dropLast, endsNL p.data = false)
    (hne : pending ++ (paras.drop i).take (i' - i) ≠ [])
    (hnpb : ¬ ∀ q ∈ pending ++ (paras.drop i).take (i' - i), is_page_break q = true)
    (hsize : sumT ((paras.drop i).take (i' - i)) ≤ hard ∨
      ∃ h t : String, (paras.drop i).take (i' - i) = [h, t] ∧
        is_heading h = true ∧ is_table t = true) :
    GoodChunk hard (pending ++ (paras.drop i).take (i' - i)) r := by
  refine ⟨hne, ?_, ?_, fun hall => absurd hall hnpb,
    ⟨pending, (paras.drop i).take (i' - i), [], by simp, hpendH, by simp, hsize⟩⟩
  · intro p hp
    rcases List.mem_append.mp hp with hp | hp
    · exact hpendNN p hp
    · exact slice_hasNN hNNg p hp
  · intro p hp
    by_cases hsl : (paras.drop i).take (i' - i) = []
    · rw [hsl, List.append_nil] at hp
      exact hpendDL p hp
    · rw [List.dropLast_append_of_ne_nil pending hsl] at hp
      rcases List.mem_append.mp hp with hp | hp
      · exact hpendNL p hp
      · exact slice_dropLast_endsNL hNLg p hp

/-- Every force-split window chunk is good, and its single paragraph does
not end in a newline. -/
theorem GoodChunk_window {hard : Nat} {p w r : String}
    (h : (w, r) ∈ window_chunks p hard) :
    GoodChunk hard [w] r ∧ endsNL w.data = false := by
  obtain ⟨htok, hnl, hpre⟩ := window_facts h
  refine ⟨⟨by simp, ?_, by simp, fun _ => hpre, ⟨[], [w], [], by simp, by simp, by simp, ?_⟩⟩,
    noNL_endsNL hnl⟩
  · intro q hq
    rcases List.mem_singleton.mp hq with rfl
    exact noNL_hasNN hnl
  · left
    rw [sumT_cons, sumT_nil]
    omega

/-- The consumed input corresponding to a dropped (empty or page-break
only) merged chunk reconstructs to nothing. -/
theorem Recon_dropped {hard : Nat} {xs2 pending slice : List String}
    (hrnf : ReconNF xs2 pending)
    (hc : pending ++ slice = [] ∨ ∀ q ∈ pending ++ slice, is_page_break q = true) :
    Recon hard (xs2 ++ slice) [] := by
  have r1 : Recon hard xs2 [] := by
    rcases hc with hc | hc
    · rcases List.append_eq_nil.mp hc with ⟨h1, _⟩
      subst h1
      exact hrnf.toRecon
    · exact hrnf.dropOut (fun q hq => hc q (List.mem_append_left _ hq))
  have r2 : Recon hard slice [] := by
    rcases hc with hc | hc
    · rcases List.append_eq_nil.mp hc with ⟨_, h2⟩
      subst h2
      exact Recon.nil
    · exact Recon.dropAll (fun q hq => hc q (List.mem_append_right _ hq))
  simpa using r1.append r2

/-! ### Preservation of the invariant -/

theorem stepIter_inv {paras : List String} {hard : Nat}
    (hNNg : ∀ p ∈ paras, hasNN p.data = false)
    (hNLg : ∀ k, k + 1 < paras.length → endsNL (pget paras k).data = false)
    {s : ChunkSt} (hi : s.i < paras.length) (hs : stInv paras hard s) :
    stInv paras hard (stepIter paras hard s) := by
  obtain ⟨hile, gss, xs1, xs2, hchunks, hgood, hpendNLc, hltNLc, htake, hrec, hrnf,
    hpendH, hpendNN, hpendNL, hpendDL⟩ := hs
  by_cases hskip : is_page_break (pget paras s.i) = true ∧ s.i + 1 < paras.length ∧
      is_list_item (pget paras (s.i + 1)) = true
  · -- page-break skipped before a list item: the page break is dropped
    rw [stepIter_skip hskip]
    refine ⟨by show s.i + 1 ≤ paras.length; omega,
      gss, xs1, xs2 ++ [pget paras s.i], hchunks, hgood, hpendNLc,
      fun _ => hltNLc hi, ?_, hrec, ?_, hpendH, hpendNN,
      fun _ => hpendNL hi, hpendDL⟩
    · show paras.take (s.i + 1) = xs1 ++ (xs2 ++ [pget paras s.i])
      rw [take_succ_pget hi, htake, List.append_assoc]
    · have h := hrnf.appendNF (ReconNF.drop hskip.1 ReconNF.nil)
      simpa using h
  · by_cases hh : is_heading (pget paras s.i) = true
    · by_cases hov : hard < get_token_count (pget paras s.i)
      · -- oversized heading: flush pending, emit force-split windows
        rw [stepIter_fsplit hskip hh hov]
        by_cases hfl : s.pending ≠ [] ∧ ¬(∀ q ∈ s.pending, is_page_break q = true)
        · rw [if_pos hfl]
          refine ⟨by show s.i + 1 ≤ paras.length; omega,
            gss ++ [(s.pending, "Flushing pending headings before oversized heading")] ++
              (window_chunks (pget paras s.i) hard).map (fun c => ([c.1], c.2)),
            xs1 ++ (xs2 ++ [pget paras s.i]), [], ?_, ?_, ?_, ?_, ?_, ?_,
            ReconNF.nil, by simp, by simp, fun _ => by simp, by simp⟩
          · show s.chunks ++ [(joinNN s.pending, _)] ++ window_chunks (pget paras s.i) hard = _
            rw [hchunks]
            simp only [List.map_append, map_join_singletons, List.map_cons, List.map_nil]
          · intro g hg
            rcases List.mem_append.mp hg with hg | hg
            · rcases List.mem_append.mp hg with hg | hg
              · exact hgood g hg
              · rcases List.mem_singleton.mp hg with rfl
                exact ⟨hfl.1, hpendNN, hpendDL, fun hall => absurd hall hfl.2,
                  ⟨s.pending, [], [], by simp, hpendH, by simp, Or.inl (by simp [sumT_nil])⟩⟩
            · rcases List.mem_map.mp hg with ⟨c, hc, rfl⟩
              exact (GoodChunk_window (show ((c.1, c.2) : String × String) ∈ _ from hc)).1
          · intro hcon
            exact absurd rfl hcon
          · intro _ g hg
            rcases List.mem_append.mp hg with hg | hg
            · rcases List.mem_append.mp hg with hg | hg
              · exact hltNLc hi g hg
              · rcases List.mem_singleton.mp hg with rfl
                exact hpendNL hi
            · rcases List.mem_map.mp hg with ⟨c, hc, rfl⟩
              intro p hp
              rcases List.mem_singleton.mp hp with rfl
              exact (GoodChunk_window (show ((c.1, c.2) : String × String) ∈ _ from hc)).2
          · show paras.take (s.i + 1) = xs1 ++ (xs2 ++ [pget paras s.i]) ++ []
            rw [take_succ_pget hi, htake, List.append_assoc, List.append_nil]
          · have hR := hrec.append ((@ReconNF.toRecon hard _ _ hrnf).append
              (Recon.fsplit hh hov Recon.nil))
            simp only [List.map_append, List.flatten_append, flatten_singletons,
              List.map_cons, List.map_nil, List.flatten_cons, List.flatten_nil,
              List.append_nil] at hR ⊢
            simpa [List.append_assoc] using hR
        · rw [if_neg hfl]
          have hdropped : s.pending = [] ∨ ∀ q ∈ s.pending, is_page_break q = true := by
            by_cases h1 : s.pending = []
            · exact Or.inl h1
            · right
              by_contra h2
              exact hfl ⟨h1, h2⟩
          refine ⟨by show s.i + 1 ≤ paras.length; omega,
            gss ++ (window_chunks (pget paras s.i) hard).map (fun c => ([c.1], c.2)),
            xs1 ++ (xs2 ++ [pget paras s.i]), [], ?_, ?_, ?_, ?_, ?_, ?_,
            ReconNF.nil, by simp, by simp, fun _ => by simp, by simp⟩
          · show s.chunks ++ window_chunks (pget paras s.i) hard = _
            rw [hchunks]
            simp only [List.map_append, map_join_singletons]
          · intro g hg
            rcases List.mem_append.mp hg with hg | hg
            · exact hgood g hg
            · rcases List.mem_map.mp hg with ⟨c, hc, rfl⟩
              exact (GoodChunk_window (show ((c.1, c.2) : String × String) ∈ _ from hc)).1
          · intro hcon
            exact absurd rfl hcon
          · intro _ g hg
            rcases List.mem_append.mp hg with hg | hg
            · exact hltNLc hi g hg
            · rcases List.mem_map.mp hg with ⟨c, hc, rfl⟩
              intro p hp
              rcases List.mem_singleton.mp hp with rfl
              exact (GoodChunk_window (show ((c.1, c.2) : String × String) ∈ _ from hc)).2
          · show paras.take (s.i + 1) = xs1 ++ (xs2 ++ [pget paras s.i]) ++ []
            rw [take_succ_pget hi, htake, List.append_assoc, List.append_nil]
          · have hx2 : Recon hard xs2 [] := by
              have := @Recon_dropped hard _ _ [] hrnf
                (by simpa using hdropped)
              simpa using this
            have hR := hrec.append (hx2.append (Recon.fsplit hh hov Recon.nil))
            simp only [List.map_append, List.flatten_append, flatten_singletons,
              List.map_cons, List.map_nil, List.flatten_cons, List.flatten_nil,
              List.append_nil] at hR ⊢
            simpa [List.append_assoc] using hR
      · by_cases htab : s.i + 1 < paras.length ∧ is_table (pget paras (s.i + 1)) = true
        · -- heading followed by a table: the table-grouping loop
          rw [stepIter_table hskip hh hov htab]
          obtain ⟨i', g, heqT, hge, hle', hsize⟩ :=
            tableLoop_spec paras hard s.i hh htab.1 htab.2
          rw [heqT]
          by_cases hc : s.pending ++ (paras.drop s.i).take (i' - s.i) ≠ [] ∧
              ¬(∀ q ∈ s.pending ++ (paras.drop s.i).take (i' - s.i), is_page_break q = true)
          · rw [if_pos hc]
            refine ⟨hle',
              gss ++ [(s.pending ++ (paras.drop s.i).take (i' - s.i),
                "Table chunk with " ++ Nat.repr g ++ " table group(s), " ++
                  Nat.repr (sumT ((paras.drop s.i).take (i' - s.i))) ++ " tokens")],
              xs1 ++ (xs2 ++ (paras.drop s.i).take (i' - s.i)), [], ?_, ?_, ?_, ?_, ?_, ?_,
              ReconNF.nil, by simp, by simp, fun _ => by simp, by simp⟩
            · show s.chunks ++ [(joinNN _, _)] = _
              rw [hchunks]
              simp only [List.map_append, List.map_cons, List.map_nil]
            · intro gc hgc
              rcases List.mem_append.mp hgc with hgc | hgc
              · exact hgood gc hgc
              · rcases List.mem_singleton.mp hgc with rfl
                exact GoodChunk_emit hNNg hNLg hpendH hpendNN (hpendNL hi) hpendDL
                  hc.1 hc.2 hsize
            · intro hcon
              exact absurd rfl hcon
            · intro hlt gc hgc
              rcases List.mem_append.mp hgc with hgc | hgc
              · exact hltNLc hi gc hgc
              · rcases List.mem_singleton.mp hgc with rfl
                intro p hp
                rcases List.mem_append.mp hp with hp | hp
                · exact hpendNL hi p hp
                · exact slice_endsNL_all hNLg hlt p hp
            · show paras.take i' = xs1 ++ (xs2 ++ (paras.drop s.i).take (i' - s.i)) ++ []
              rw [take_slice paras hge, htake, List.append_assoc, List.append_nil]
            · have hR := hrec.append ((@ReconNF.toRecon hard _ _ hrnf).append
                (Recon.ofAll ((paras.drop s.i).take (i' - s.i))))
              simp only [List.map_append, List.flatten_append, List.map_cons,
                List.map_nil, List.flatten_cons, List.flatten_nil, List.append_nil] at hR ⊢
              simpa [List.append_assoc] using hR
          · rw [if_neg hc]
            have hdropped : s.pending ++ (paras.drop s.i).take (i' - s.i) = [] ∨
                ∀ q ∈ s.pending ++ (paras.drop s.i).take (i' - s.i),
                  is_page_break q = true := by
              by_cases h1 : s.pending ++ (paras.drop s.i).take (i' - s.i) = []
              · exact Or.inl h1
              · right
                by_contra h2
                exact hc ⟨h1, h2⟩
            refine ⟨hle', gss, xs1 ++ (xs2 ++ (paras.drop s.i).take (i' - s.i)), [],
              hchunks, hgood, ?_, ?_, ?_, ?_,
              ReconNF.nil, by simp, by simp, fun _ => by simp, by simp⟩
            · intro hcon
              exact absurd rfl hcon
            · intro _ gc hgc
              exact hltNLc hi gc hgc
            · show paras.take i' = xs1 ++ (xs2 ++ (paras.drop s.i).take (i' - s.i)) ++ []
              rw [take_slice paras hge, htake, List.append_assoc, List.append_nil]
            · have hR := hrec.append (Recon_dropped hrnf hdropped)
              simpa using hR
        · -- normal heading group: collect subheadings and content
          rw [stepIter_headcollect hskip hh hov htab]
          obtain ⟨i', heqH, hge, hle', hbound⟩ :=
            headCollectF_spec paras hard (get_heading_level (pget paras s.i))
              (paras.length - (s.i + 1)) (s.i + 1) (get_token_count (pget paras s.i))
              [pget paras s.i] (Nat.le_refl _) (by omega)
          have heqH' : headCollect paras hard (get_heading_level (pget paras s.i))
              (s.i + 1) (get_token_count (pget paras s.i)) [pget paras s.i] =
              (i', get_token_count (pget paras s.i) +
                sumT ((paras.drop (s.i + 1)).take (i' - (s.i + 1))),
                [pget paras s.i] ++ (paras.drop (s.i + 1)).take (i' - (s.i + 1))) := heqH
          have hacc : [pget paras s.i] ++ (paras.drop (s.i + 1)).take (i' - (s.i + 1)) =
              (paras.drop s.i).take (i' - s.i) := by
            rw [drop_cons_pget hi, show i' - s.i = (i' - (s.i + 1)) + 1 from by omega,
              List.take_succ_cons]
            rfl
          have hslice_ne : (paras.drop s.i).take (i' - s.i) ≠ [] := by
            rw [← hacc]
            simp
          have htok : get_token_count (pget paras s.i) +
              sumT ((paras.drop (s.i + 1)).take (i' - (s.i + 1))) =
              sumT ((paras.drop s.i).take (i' - s.i)) := by
            rw [← hacc, sumT_append, sumT_cons, sumT_nil]
            omega
          rw [heqH', hacc]
          show stInv paras hard
            (if (∀ q ∈ (paras.drop s.i).take (i' - s.i), is_heading q = true) ∧
                1 ≤ ((paras.drop s.i).take (i' - s.i)).length ∧
                ((paras.drop s.i).take (i' - s.i)).length ≤ 6 then
              { i := i', pending := s.pending ++ (paras.drop s.i).take (i' - s.i),
                chunks := s.chunks }
            else
              { i := i', pending := [],
                chunks :=
                  if s.pending ++ (paras.drop s.i).take (i' - s.i) ≠ [] ∧
                      ¬(∀ q ∈ s.pending ++ (paras.drop s.i).take (i' - s.i),
                        is_page_break q = true) then
                    s.chunks ++ [(joinNN (s.pending ++ (paras.drop s.i).take (i' - s.i)),
                      if ∀ q ∈ (paras.drop s.i).take (i' - s.i), is_heading q = true then
                        "Heading group with " ++
                          Nat.repr (s.pending ++ (paras.drop s.i).take (i' - s.i)).length ++
                          " headings, " ++
                          Nat.repr (get_token_count (pget paras s.i) +
                            sumT ((paras.drop (s.i + 1)).take (i' - (s.i + 1)))) ++
                          " tokens"
                      else
                        "Content under heading level " ++
                          Nat.repr (get_heading_level (pget paras s.i)) ++ ", " ++
                          Nat.repr (get_token_count (pget paras s.i) +
                            sumT ((paras.drop (s.i + 1)).take (i' - (s.i + 1)))) ++
                          " tokens")]
                  else s.chunks })
          by_cases hdef : (∀ q ∈ (paras.drop s.i).take (i' - s.i), is_heading q = true) ∧
              1 ≤ ((paras.drop s.i).take (i' - s.i)).length ∧
              ((paras.drop s.i).take (i' - s.i)).length ≤ 6
          · rw [if_pos hdef]
            refine ⟨hle', gss, xs1, xs2 ++ (paras.drop s.i).take (i' - s.i),
              hchunks, hgood, fun _ => hltNLc hi, fun _ => hltNLc hi, ?_, hrec, ?_,
              ?_, ?_, ?_, ?_⟩
            · show paras.take i' = xs1 ++ (xs2 ++ (paras.drop s.i).take (i' - s.i))
              rw [take_slice paras (show s.i ≤ i' from by omega), htake, List.append_assoc]
            · exact hrnf.appendNF (ReconNF.ofAllNF _)
            · intro p hp
              rcases List.mem_append.mp hp with hp | hp
              · exact hpendH p hp
              · exact hdef.1 p hp
            · intro p hp
              rcases List.mem_append.mp hp with hp | hp
              · exact hpendNN p hp
              · exact slice_hasNN hNNg p hp
            · intro hlt p hp
              rcases List.mem_append.mp hp with hp | hp
              · exact hpendNL hi p hp
              · exact slice_endsNL_all hNLg hlt p hp
            · show ∀ p ∈ (s.pending ++ (paras.drop s.i).take (i' - s.i)).dropLast,
                endsNL p.data = false
              rw [List.dropLast_append_of_ne_nil _ hslice_ne]
              intro p hp
              rcases List.mem_append.mp hp with hp | hp
              · exact hpendNL hi p hp
              · exact slice_dropLast_endsNL hNLg p hp
          · rw [if_neg hdef]
            by_cases hc : s.pending ++ (paras.drop s.i).take (i' - s.i) ≠ [] ∧
                ¬(∀ q ∈ s.pending ++ (paras.drop s.i).take (i' - s.i),
                  is_page_break q = true)
            · rw [if_pos hc]
              refine ⟨hle',
                gss ++ [(s.pending ++ (paras.drop s.i).take (i' - s.i),
                  if ∀ q ∈ (paras.drop s.i).take (i' - s.i), is_heading q = true then
                    "Heading group with " ++
                      Nat.repr (s.pending ++ (paras.drop s.i).take (i' - s.i)).length ++
                      " headings, " ++
                      Nat.repr (get_token_count (pget paras s.i) +
                        sumT ((paras.drop (s.i + 1)).take (i' - (s.i + 1)))) ++
                      " tokens"
                  else
                    "Content under heading level " ++
                      Nat.repr (get_heading_level (pget paras s.i)) ++ ", " ++
                      Nat.repr (get_token_count (pget paras s.i) +
                        sumT ((paras.drop (s.i + 1)).take (i' - (s.i + 1)))) ++
                      " tokens")],
                xs1 ++ (xs2 ++ (paras.drop s.i).take (i' - s.i)), [], ?_, ?_, ?_, ?_, ?_, ?_,
                ReconNF.nil, by simp, by simp, fun _ => by simp, by simp⟩
              · show s.chunks ++ [(joinNN _, _)] = _
                rw [hchunks]
                simp only [List.map_append, List.map_cons, List.map_nil]
              · intro gc hgc
                rcases List.mem_append.mp hgc with hgc | hgc
                · exact hgood gc hgc
                · rcases List.mem_singleton.mp hgc with rfl
                  refine GoodChunk_emit hNNg hNLg hpendH hpendNN (hpendNL hi) hpendDL
                    hc.1 hc.2 (Or.inl ?_)
                  rw [← htok]
                  exact hbound (Nat.le_of_not_lt hov)
              · intro hcon
                exact absurd rfl hcon
              · intro hlt gc hgc
                rcases List.mem_append.mp hgc with hgc | hgc
                · exact hltNLc hi gc hgc
                · rcases List.mem_singleton.mp hgc with rfl
                  intro p hp
                  rcases List.mem_append.mp hp with hp | hp
                  · exact hpendNL hi p hp
                  · exact slice_endsNL_all hNLg hlt p hp
              · show paras.take i' =
                  xs1 ++ (xs2 ++ (paras.drop s.i).take (i' - s.i)) ++ []
                rw [take_slice paras (show s.i ≤ i' from by omega), htake,
                  List.append_assoc, List.append_nil]
              · have hR := hrec.append ((@ReconNF.toRecon hard _ _ hrnf).append
                  (Recon.ofAll ((paras.drop s.i).take (i' - s.i))))
                simp only [List.map_append, List.flatten_append, List.map_cons,
                  List.map_nil, List.flatten_cons, List.flatten_nil,
                  List.append_nil] at hR ⊢
                simpa [List.append_assoc] using hR
            · rw [if_neg hc]
              have hdropped : s.pending ++ (paras.drop s.i).take (i' - s.i) = [] ∨
                  ∀ q ∈ s.pending ++ (paras.drop s.i).take (i' - s.i),
                    is_page_break q = true := by
                by_cases h1 : s.pending ++ (paras.drop s.i).take (i' - s.i) = []
                · exact Or.inl h1
                · right
                  by_contra h2
                  exact hc ⟨h1, h2⟩
              refine ⟨hle', gss, xs1 ++ (xs2 ++ (paras.drop s.i).take (i' - s.i)), [],
                hchunks, hgood, ?_, ?_, ?_, ?_,
                ReconNF.nil, by simp, by simp, fun _ => by simp, by simp⟩
              · intro hcon
                exact absurd rfl hcon
              · intro _ gc hgc
                exact hltNLc hi gc hgc
              · show paras.take i' =
                  xs1 ++ (xs2 ++ (paras.drop s.i).take (i' - s.i)) ++ []
                rw [take_slice paras (show s.i ≤ i' from by omega), htake,
                  List.append_assoc, List.append_nil]
              · have hR := hrec.append (Recon_dropped hrnf hdropped)
                simpa using hR
    · -- non-heading paragraph: collect a run of admissible non-headings
      rw [stepIter_nonhead hskip hh]
      obtain ⟨i', heq, hge, hle', hbound⟩ :=
        nonHeadCollectF_spec paras hard (paras.length - s.i) s.i 0 [] (Nat.le_refl _) hile
      have heq' : nonHeadCollect paras hard s.i 0 [] =
          (i', 0 + sumT ((paras.drop s.i).take (i' - s.i)),
            [] ++ (paras.drop s.i).take (i' - s.i)) := heq
      rw [heq']
      show stInv paras hard
        (if s.pending ++ (paras.drop s.i).take (i' - s.i) ≠ [] ∧
            (∀ q ∈ s.pending ++ (paras.drop s.i).take (i' - s.i), is_heading q = true) ∧
            1 ≤ (s.pending ++ (paras.drop s.i).take (i' - s.i)).length ∧
            (s.pending ++ (paras.drop s.i).take (i' - s.i)).length ≤ 6 then
          { i := i', pending := s.pending ++ (paras.drop s.i).take (i' - s.i),
            chunks := s.chunks }
        else
          { i := i', pending := [],
            chunks :=
              if s.pending ++ (paras.drop s.i).take (i' - s.i) ≠ [] ∧
                  ¬(∀ q ∈ s.pending ++ (paras.drop s.i).take (i' - s.i),
                    is_page_break q = true) then
                s.chunks ++ [(joinNN (s.pending ++ (paras.drop s.i).take (i' - s.i)),
                  "Non-heading content, " ++
                    Nat.repr (0 + sumT ((paras.drop s.i).take (i' - s.i))) ++ " tokens")]
              else s.chunks })
      by_cases hdef : s.pending ++ (paras.drop s.i).take (i' - s.i) ≠ [] ∧
          (∀ q ∈ s.pending ++ (paras.drop s.i).take (i' - s.i), is_heading q = true) ∧
          1 ≤ (s.pending ++ (paras.drop s.i).take (i' - s.i)).length ∧
          (s.pending ++ (paras.drop s.i).take (i' - s.i)).length ≤ 6
      · rw [if_pos hdef]
        refine ⟨hle', gss, xs1, xs2 ++ (paras.drop s.i).take (i' - s.i),
          hchunks, hgood, fun _ => hltNLc hi, fun _ => hltNLc hi, ?_, hrec,
          hrnf.appendNF (ReconNF.ofAllNF _), hdef.2.1, ?_, ?_, ?_⟩
        · show paras.take i' = xs1 ++ (xs2 ++ (paras.drop s.i).take (i' - s.i))
          rw [take_slice paras hge, htake, List.append_assoc]
        · intro p hp
          rcases List.mem_append.mp hp with hp | hp
          · exact hpendNN p hp
          · exact slice_hasNN hNNg p hp
        · intro hlt p hp
          rcases List.mem_append.mp hp with hp | hp
          · exact hpendNL hi p hp
          · exact slice_endsNL_all hNLg hlt p hp
        · show ∀ p ∈ (s.pending ++ (paras.drop s.i).take (i' - s.i)).dropLast,
            endsNL p.data = false
          by_cases hsl : (paras.drop s.i).take (i' - s.i) = []
          · rw [hsl, List.append_nil]
            exact hpendDL
          · rw [List.dropLast_append_of_ne_nil _ hsl]
            intro p hp
            rcases List.mem_append.mp hp with hp | hp
            · exact hpendNL hi p hp
            · exact slice_dropLast_endsNL hNLg p hp
      · rw [if_neg hdef]
        by_cases hc : s.pending ++ (paras.drop s.i).take (i' - s.i) ≠ [] ∧
            ¬(∀ q ∈ s.pending ++ (paras.drop s.i).take (i' - s.i), is_page_break q = true)
        · rw [if_pos hc]
          refine ⟨hle',
            gss ++ [(s.pending ++ (paras.drop s.i).take (i' - s.i),
              "Non-heading content, " ++
                Nat.repr (0 + sumT ((paras.drop s.i).take (i' - s.i))) ++ " tokens")],
            xs1 ++ (xs2 ++ (paras.drop s.i).take (i' - s.i)), [], ?_, ?_, ?_, ?_, ?_, ?_,
            ReconNF.nil, by simp, by simp, fun _ => by simp, by simp⟩
          · show s.chunks ++ [(joinNN _, _)] = _
            rw [hchunks]
            simp only [List.map_append, List.map_cons, List.map_nil]
          · intro gc hgc
            rcases List.mem_append.mp hgc with hgc | hgc
            · exact hgood gc hgc
            · rcases List.mem_singleton.mp hgc with rfl
              refine GoodChunk_emit hNNg hNLg hpendH hpendNN (hpendNL hi) hpendDL
                hc.1 hc.2 (Or.inl ?_)
              have := hbound (Nat.zero_le hard)
              omega
          · intro hcon
            exact absurd rfl hcon
          · intro hlt gc hgc
            rcases List.mem_append.mp hgc with hgc | hgc
            · exact hltNLc hi gc hgc
            · rcases List.mem_singleton.mp hgc with rfl
              intro p hp
              rcases List.mem_append.mp hp with hp | hp
              · exact hpendNL hi p hp
              · exact slice_endsNL_all hNLg hlt p hp
          · show paras.take i' = xs1 ++ (xs2 ++ (paras.drop s.i).take (i' - s.i)) ++ []
            rw [take_slice paras hge, htake, List.append_assoc, List.append_nil]
          · have hR := hrec.append ((@ReconNF.toRecon hard _ _ hrnf).append
              (Recon.ofAll ((paras.drop s.i).take (i' - s.i))))
            simp only [List.map_append, List.flatten_append, List.map_cons,
              List.map_nil, List.flatten_cons, List.flatten_nil,
              List.append_nil] at hR ⊢
            simpa [List.append_assoc] using hR
        · rw [if_neg hc]
          have hdropped : s.pending ++ (paras.drop s.i).take (i' - s.i) = [] ∨
              ∀ q ∈ s.pending ++ (paras.drop s.i).take (i' - s.i),
                is_page_break q = true := by
            by_cases h1 : s.pending ++ (paras.drop s.i).take (i' - s.i) = []
            · exact Or.inl h1
            · right
              by_contra h2
              exact hc ⟨h1, h2⟩
          refine ⟨hle', gss, xs1 ++ (xs2 ++ (paras.drop s.i).take (i' - s.i)), [],
            hchunks, hgood, ?_, ?_, ?_, ?_,
            ReconNF.nil, by simp, by simp, fun _ => by simp, by simp⟩
          · intro hcon
            exact absurd rfl hcon
          · intro _ gc hgc
            exact hltNLc hi gc hgc
          · show paras.take i' = xs1 ++ (xs2 ++ (paras.drop s.i).take (i' - s.i)) ++ []
            rw [take_slice paras hge, htake, List.append_assoc, List.append_nil]
          · have hR := hrec.append (Recon_dropped hrnf hdropped)
            simpa using hR

/-! ### The invariant at the start, through the loop, and at finalization -/

theorem stInv_init (paras : List String) (hard : Nat) : stInv paras hard initSt :=
  ⟨Nat.zero_le _, [], [], [],
    rfl,
    fun g hg => absurd hg (List.not_mem_nil g),
    fun h => absurd rfl h,
    fun _ g hg => absurd hg (List.not_mem_nil g),
    rfl,
    Recon.nil, ReconNF.nil,
    fun p hp => absurd hp (List.not_mem_nil p),
    fun p hp => absurd hp (List.not_mem_nil p),
    fun _ p hp => absurd hp (List.not_mem_nil p),
    fun p hp => absurd hp (List.not_mem_nil p)⟩

theorem chunkLoop_inv {paras : List String} {hard : Nat}
    (hNNg : ∀ p ∈ paras, hasNN p.data = false)
    (hNLg : ∀ k, k + 1 < paras.length → endsNL (pget paras k).data = false) :
    ∀ (fuel : Nat) (s s' : ChunkSt), stInv paras hard s →
      chunkLoop paras hard fuel s = some s' →
      stInv paras hard s' ∧ s'.i = paras.length := by
  intro fuel
  induction fuel with
  | zero =>
    intro s s' _ h
    exact absurd h (by simp [chunkLoop])
  | succ f ih =>
    intro s s' hs h
    rw [show chunkLoop paras hard (f + 1) s =
        (if s.i < paras.length then chunkLoop paras hard f (stepIter paras hard s)
         else some s) from rfl] at h
    by_cases hi : s.i < paras.length
    · rw [if_pos hi] at h
      exact ih _ s' (stepIter_inv hNNg hNLg hi hs) h
    · rw [if_neg hi] at h
      obtain rfl := Option.some_inj.mp h
      have h1 := hs.1
      exact ⟨hs, by omega⟩

theorem stepN_inv {paras : List String} {hard : Nat}
    (hNNg : ∀ p ∈ paras, hasNN p.data = false)
    (hNLg : ∀ k, k + 1 < paras.length → endsNL (pget paras k).data = false) :
    ∀ (k : Nat) (s : ChunkSt), stInv paras hard s →
      stInv paras hard (stepN paras hard k s) := by
  intro k
  induction k with
  | zero => intro s hs; exact hs
  | succ f ih =>
    intro s hs
    rw [show stepN paras hard (f + 1) s =
        (if s.i < paras.length then stepN paras hard f (stepIter paras hard s) else s)
      from rfl]
    by_cases hi : s.i < paras.length
    · rw [if_pos hi]
      exact ih _ (stepIter_inv hNNg hNLg hi hs)
    · rw [if_neg hi]
      exact hs

/-- Finalization keeps the ghost decomposition: the finished chunk list is
the `'\n\n'.join` of good ghost paragraph lists whose concatenation
reconstructs the full paragraph sequence. -/
theorem finalize_spec {paras : List String} {hard : Nat} {s : ChunkSt}
    (hs : stInv paras hard s) (hend : s.i = paras.length) :
    ∃ gss' : List (List String × String),
      finalizeChunks s = gss'.map (fun g => (joinNN g.1, g.2)) ∧
      (∀ g ∈ gss', GoodChunk hard g.1 g.2) ∧
      Recon hard paras ((gss'.map Prod.fst).flatten) := by
  obtain ⟨hile, gss, xs1, xs2, hchunks, hgood, hpendNLc, hltNLc, htake, hrec, hrnf,
    hpendH, hpendNN, hpendNL, hpendDL⟩ := hs
  have hparas : paras = xs1 ++ xs2 := by
    rw [← htake, hend, List.take_length]
  by_cases hpe : s.pending = []
  · refine ⟨gss, ?_, hgood, ?_⟩
    · show finalizeChunks s = _
      unfold finalizeChunks
      rw [if_pos hpe, hchunks]
    · rw [hparas]
      have h2 : Recon hard xs2 [] := by
        have h := hrnf
        rw [hpe] at h
        exact h.toRecon
      have h3 := hrec.append h2
      simpa using h3
  · rcases hlast : s.chunks.getLast? with _ | lc
    · -- no chunk yet: the pending headings stand alone
      have hcn : s.chunks = [] := by
        cases hc : s.chunks with
        | nil => rfl
        | cons a t =>
          rw [hc] at hlast
          simp [List.getLast?_concat] at hlast
      have hgn : gss = [] := by
        cases hg : gss with
        | nil => rfl
        | cons a t =>
          rw [hg] at hchunks
          rw [hcn] at hchunks
          simp at hchunks
      by_cases hall : ∀ q ∈ s.pending, is_page_break q = true
      · refine ⟨[], ?_, fun g hg => absurd hg (List.not_mem_nil g), ?_⟩
        · show finalizeChunks s = []
          unfold finalizeChunks
          rw [if_neg hpe, hlast]
          show (if ∀ q ∈ s.pending, is_page_break q = true then ([] : List (String × String))
            else _) = []
          rw [if_pos hall]
        · rw [hparas]
          have h1 : Recon hard xs1 [] := by
            rw [hgn] at hrec
            simpa using hrec
          have h2 : Recon hard xs2 [] := hrnf.dropOut hall
          have h3 := h1.append h2
          simpa using h3
      · refine ⟨[(s.pending,
          "Only pending headings, " ++ Nat.repr s.pending.length ++ " headings")], ?_, ?_, ?_⟩
        · show finalizeChunks s = _
          unfold finalizeChunks
          rw [if_neg hpe, hlast]
          show (if ∀ q ∈ s.pending, is_page_break q = true then ([] : List (String × String))
            else [(joinNN s.pending,
              "Only pending headings, " ++ Nat.repr s.pending.length ++ " headings")]) = _
          rw [if_neg hall]
          rfl
        · intro g hg
          rcases List.mem_singleton.mp hg with rfl
          refine ⟨hpe, hpendNN, hpendDL, fun hall' => absurd hall' hall,
            ⟨s.pending, [], [], by simp, hpendH, by simp, Or.inl ?_⟩⟩
          show sumT [] ≤ hard
          rw [sumT_nil]
          exact Nat.zero_le hard
        · rw [hparas]
          have h1 : Recon hard xs1 [] := by
            rw [hgn] at hrec
            simpa using hrec
          have h3 := h1.append (@ReconNF.toRecon hard _ _ hrnf)
          simpa using h3
    · -- merge the pending headings into the last chunk
      have hgne : gss ≠ [] := by
        intro hg
        rw [hg] at hchunks
        simp at hchunks
        rw [hchunks] at hlast
        simp at hlast
      have hglast : gss.getLast? = some (gss.getLast hgne) :=
        List.getLast?_eq_getLast gss hgne
      have hlcg : lc = (joinNN (gss.getLast hgne).1, (gss.getLast hgne).2) := by
        have hm : s.chunks.getLast? = gss.getLast?.map (fun g => (joinNN g.1, g.2)) := by
          rw [hchunks, List.getLast?_map]
        rw [hlast, hglast] at hm
        simpa using hm
      have hmem : gss.getLast hgne ∈ gss := List.getLast_mem hgne
      obtain ⟨hne1, hNN1, hDL1, hpb1, pre, core, post, hdecomp, hpreH, hpostH, hsize⟩ :=
        hgood _ hmem
      have hNLall : ∀ p ∈ (gss.getLast hgne).1, endsNL p.data = false :=
        hpendNLc hpe _ hmem
      have hresplit : splitNNs lc.1 = (gss.getLast hgne).1 := by
        rw [hlcg]
        exact splitNNs_joinNN hne1 hNN1 hDL1
      by_cases hall : ∀ q ∈ (gss.getLast hgne).1 ++ s.pending, is_page_break q = true
      · refine ⟨gss, ?_, hgood, ?_⟩
        · show finalizeChunks s = _
          unfold finalizeChunks
          rw [if_neg hpe, hlast]
          show (if ∀ q ∈ splitNNs lc.1 ++ s.pending, is_page_break q = true then s.chunks
            else _) = _
          rw [hresplit, if_pos hall, hchunks]
        · rw [hparas]
          have h2 : Recon hard xs2 [] :=
            hrnf.dropOut (fun q hq => hall q (List.mem_append_right _ hq))
          have h3 := hrec.append h2
          simpa using h3
      · refine ⟨gss.dropLast ++ [((gss.getLast hgne).1 ++ s.pending,
          (gss.getLast hgne).2 ++ " + trailing headings")], ?_, ?_, ?_⟩
        · show finalizeChunks s = _
          unfold finalizeChunks
          rw [if_neg hpe, hlast]
          show (if ∀ q ∈ splitNNs lc.1 ++ s.pending, is_page_break q = true then s.chunks
            else s.chunks.dropLast ++
              [(joinNN (splitNNs lc.1 ++ s.pending), lc.2 ++ " + trailing headings")]) = _
          rw [hresplit, if_neg hall, hchunks, ← List.map_dropLast]
          rw [hlcg]
          simp only [List.map_append, List.map_cons, List.map_nil]
        · intro g hg
          rcases List.mem_append.mp hg with hg | hg
          · exact hgood g ((List.dropLast_sublist gss).subset hg)
          · rcases List.mem_singleton.mp hg with rfl
            refine ⟨by simp [hne1], ?_, ?_, fun hall' => absurd hall' hall,
              ⟨pre, core, post ++ s.pending, ?_, hpreH, ?_, hsize⟩⟩
            · intro p hp
              rcases List.mem_append.mp hp with hp | hp
              · exact hNN1 p hp
              · exact hpendNN p hp
            · rw [List.dropLast_append_of_ne_nil _ hpe]
              intro p hp
              rcases List.mem_append.mp hp with hp | hp
              · exact hNLall p hp
              · exact hpendDL p hp
            · rw [hdecomp]
              simp [List.append_assoc]
            · intro q hq
              rcases List.mem_append.mp hq with hq | hq
              · exact hpostH q hq
              · exact hpendH q hq
        · have hsplitg : gss.dropLast ++ [gss.getLast hgne] = gss :=
            List.dropLast_concat_getLast hgne
          have hrec' : Recon hard xs1
              (((gss.dropLast ++ [gss.getLast hgne]).map Prod.fst).flatten) := by
            rw [hsplitg]
            exact hrec
          rw [hparas]
          have h3 := hrec'.append (@ReconNF.toRecon hard _ _ hrnf)
          simp only [List.map_append, List.flatten_append, List.map_cons, List.map_nil,
            List.flatten_cons, List.flatten_nil, List.append_nil] at h3 ⊢
          simpa [List.append_assoc] using h3

/-- The full pipeline: a successful `chunk_text` run yields joins of good
ghost paragraph lists reconstructing the split of the input. -/
theorem chunk_text_spec {text : String} {soft hard fuel : Nat}
    {out : List (String × String)}
    (h : chunk_text text soft hard fuel = some out) :
    ∃ gss' : List (List String × String),
      out = gss'.map (fun g => (joinNN g.1, g.2)) ∧
      (∀ g ∈ gss', GoodChunk hard g.1 g.2) ∧
      Recon hard (split_markdown_into_paragraphs text) ((gss'.map Prod.fst).flatten) := by
  unfold chunk_text at h
  rcases hloop : chunkLoop (split_markdown_into_paragraphs text) hard fuel initSt with _ | s'
  · rw [hloop] at h
    exact absurd h (by simp)
  · rw [hloop] at h
    have hout : out = finalizeChunks s' := by
      have h' : some (finalizeChunks s') = some out := h
      exact (Option.some_inj.mp h').symm
    obtain ⟨hs', hend⟩ := chunkLoop_inv (split_markdown_hasNN text)
      (split_markdown_endsNL text) fuel initSt s' (stInv_init _ _) hloop
    obtain ⟨gss', hfin, hgood, hrec⟩ := finalize_spec hs' hend
    exact ⟨gss', by rw [hout, hfin], hgood, hrec⟩

/-! ### The oversized non-heading paragraph

`chunk_text`'s non-heading branch refuses a paragraph whose token count
exceeds the hard limit even when the accumulator is empty; nothing is
collected, the cursor does not advance, and the outer loop repeats the same
iteration forever.  The input below is a single plain paragraph of 1000
words. -/

/-- The character list `"w w w ... w"` with `n` single-letter words. -/
def wwords : Nat → List Char
  | 0 => []
  | 1 => ['w']
  | n + 2 => 'w' :: ' ' :: wwords (n + 1)

/-- A single non-heading, non-page-break paragraph of 1000
whitespace-delimited words. -/
def oversizedText : String := ⟨wwords 1000⟩

theorem wwords_mem : ∀ (n : Nat), ∀ c ∈ wwords n, c = 'w' ∨ c = ' ' := by
  intro n
  induction n using Nat.strong_induction_on with
  | _ n ih =>
    match n with
    | 0 => simp [wwords]
    | 1 => simp [wwords]
    | n + 2 =>
      intro c hc
      simp only [wwords, List.mem_cons] at hc
      rcases hc with h | h | h
      · exact Or.inl h
      · exact Or.inr h
      · exact ih (n + 1) (by omega) c h

theorem splitWs_wwords : ∀ n : Nat, splitWs (wwords n) = List.replicate n ['w'] := by
  intro n
  induction n using Nat.strong_induction_on with
  | _ n ih =>
    match n with
    | 0 => rfl
    | 1 => rfl
    | n + 2 =>
      show splitWs ('w' :: ' ' :: wwords (n + 1)) = _
      rw [splitWs_cons]
      have hw : pySpace 'w' = false := by decide
      have hsp : pySpace ' ' = true := by decide
      simp only [hw, if_false, Bool.false_eq_true]
      rw [show (' ' :: wwords (n + 1)).takeWhile (fun d => !pySpace d) = [] from by
        simp [List.takeWhile_cons, hsp]]
      rw [show (' ' :: wwords (n + 1)).dropWhile (fun d => !pySpace d) = ' ' :: wwords (n + 1)
        from by simp [List.dropWhile_cons, hsp]]
      rw [splitWs_cons]
      simp only [hsp, if_true]
      rw [ih (n + 1) (by omega)]
      rfl

theorem get_token_count_oversized : get_token_count oversizedText = 1000 := by
  show (splitWs (wwords 1000)).length = 1000
  rw [splitWs_wwords]
  exact List.length_replicate 1000 _

theorem mem_pyStrip {c : Char} {l : List Char} (h : c ∈ pyStrip l) : c ∈ l := by
  unfold pyStrip at h
  rw [List.mem_reverse] at h
  have h1 := (((l.dropWhile pySpace).reverse).dropWhile_sublist pySpace).mem h
  rw [List.mem_reverse] at h1
  exact (List.dropWhile_sublist pySpace).mem h1

theorem get_heading_level_eq_zero {s : String} (h : '#' ∉ s.data) :
    get_heading_level s = 0 := by
  unfold get_heading_level
  cases hp : pyStrip s.data with
  | nil => simp
  | cons c rest =>
    have hc : c ≠ '#' := by
      intro hc
      refine h (mem_pyStrip ?_)
      rw [hp, hc]
      exact List.mem_cons_self _ _
    simp [List.takeWhile_cons, hc]

theorem containsSub_mem {nd hay : List Char} (h : containsSub nd hay = true) :
    ∀ c ∈ nd, c ∈ hay := by
  induction hay with
  | nil =>
    intro c hc
    simp only [containsSub, List.isEmpty_iff] at h
    subst h
    exact absurd hc (List.not_mem_nil c)
  | cons d t ih =>
    intro c hc
    simp only [containsSub, Bool.or_eq_true] at h
    rcases h with h | h
    · exact ((List.isPrefixOf_iff_prefix.mp h).sublist).mem hc
    · exact List.mem_cons_of_mem d (ih h c hc)

theorem is_heading_oversized : is_heading oversizedText = false := by
  unfold is_heading
  rw [get_heading_level_eq_zero]
  · rfl
  · intro h
    rcases wwords_mem 1000 '#' h with h1 | h1 <;> exact absurd h1 (by decide)

theorem is_page_break_oversized : is_page_break oversizedText = false := by
  unfold is_page_break
  have hmem : ∀ c ∈ oversizedText.data, c = 'w' ∨ c = ' ' := wwords_mem 1000
  have hlow : ∀ c ∈ pyLower oversizedText.data, c = 'w' ∨ c = ' ' := by
    intro c hc
    rcases List.mem_map.mp hc with ⟨d, hd, rfl⟩
    rcases hmem d hd with h | h <;> subst h
    · exact Or.inl (by decide)
    · exact Or.inr (by decide)
  have h1 : containsSub "<!-- pagebreak -->".data (pyLower oversizedText.data) = false := by
    cases h : containsSub "<!-- pagebreak -->".data (pyLower oversizedText.data)
    · rfl
    · rcases hlow '<' (containsSub_mem h '<' (by decide)) with h2 | h2 <;> exact absurd h2 (by decide)
  have h2 : containsSub "pagebreak".data (pyLower oversizedText.data) = false := by
    cases h : containsSub "pagebreak".data (pyLower oversizedText.data)
    · rfl
    · rcases hlow 'p' (containsSub_mem h 'p' (by decide)) with h2 | h2 <;> exact absurd h2 (by decide)
  have h3 : containsSub "<!-- pagebreak -->".data oversizedText.data = false := by
    cases h : containsSub "<!-- pagebreak -->".data oversizedText.data
    · rfl
    · rcases hmem '<' (containsSub_mem h '<' (by decide)) with h2 | h2 <;> exact absurd h2 (by decide)
  simp [h1, h2, h3]

theorem paraSplitF_no_nl : ∀ (l : List Char), (∀ c ∈ l, c ≠ '\n') →
    ∀ (fuel : Nat) (acc : List Char), paraSplitF fuel l acc = [acc ++ l] := by
  intro l
  induction l with
  | nil =>
    intro _ fuel acc
    cases fuel <;> simp [paraSplitF]
  | cons c cs ih =>
    intro h fuel acc
    cases fuel with
    | zero => rfl
    | succ f =>
      have hc : ¬ c = '\n' := h c (List.mem_cons_self c cs)
      simp only [paraSplitF, if_neg hc]
      rw [ih (fun d hd => h d (List.mem_cons_of_mem c hd)) f (acc ++ [c])]
      simp

theorem split_markdown_oversized :
    split_markdown_into_paragraphs oversizedText = [oversizedText] := by
  unfold split_markdown_into_paragraphs
  rw [paraSplitF_no_nl]
  · rfl
  · intro c hc
    rcases wwords_mem 1000 c hc with h | h <;> subst h <;> decide

/-! ### The stalled iteration -/

theorem nonHeadCollect_stop {paras : List String} {hard i tok : Nat} {acc : List String}
    (hlt : i < paras.length) (hh : is_heading (pget paras i) = false)
    (ht : hard < tok + get_token_count (pget paras i)) :
    nonHeadCollect paras hard i tok acc = (i, tok, acc) := by
  unfold nonHeadCollect
  obtain ⟨f, hf⟩ : ∃ f, paras.length - i = f + 1 := ⟨paras.length - i - 1, by omega⟩
  rw [hf]
  simp [nonHeadCollectF, hlt, hh, ht]

/-- An over-long non-heading paragraph (that is not a skippable page break)
leaves the loop state unchanged: nothing is collected, nothing is emitted,
the cursor does not move. -/
theorem stepIter_stall {paras : List String} {hard i : Nat}
    {ch : List (String × String)} (hlt : i < paras.length)
    (hpb : is_page_break (pget paras i) = false)
    (hh : is_heading (pget paras i) = false)
    (ht : hard < get_token_count (pget paras i)) :
    stepIter paras hard ⟨i, [], ch⟩ = ⟨i, [], ch⟩ := by
  unfold stepIter
  simp only [hpb, hh]
  rw [nonHeadCollect_stop hlt hh (by simpa using ht)]
  simp

theorem chunkLoop_stall {paras : List String} {hard i : Nat}
    {ch : List (String × String)} (hlt : i < paras.length)
    (hpb : is_page_break (pget paras i) = false)
    (hh : is_heading (pget paras i) = false)
    (ht : hard < get_token_count (pget paras i)) :
    ∀ fuel : Nat, chunkLoop paras hard fuel ⟨i, [], ch⟩ = none := by
  intro fuel
  induction fuel with
  | zero => rfl
  | succ k ih =>
    rw [chunkLoop_step hlt, stepIter_stall hlt hpb hh ht]
    exact ih

/-! ### Claim theorems: basic behaviours -/

/-- Claim C9: the `soft_limit` parameter is threaded through `chunk_text` but
never consulted, so any two soft limits produce identical chunk lists. -/
theorem c9_soft_limit_has_no_influence :
    ∀ (text : String) (s1 s2 hard fuel : Nat),
      chunk_text text s1 hard fuel = chunk_text text s2 hard fuel :=
  fun _ _ _ _ _ => rfl

/-- Claim C4, counterexample: on the empty string the paragraph splitter
yields one empty paragraph, not zero, and `chunk_text` emits it, so the
result is not the empty chunk list. -/
theorem c4_empty_input_counterexample :
    chunk_text "" 300 800 3 ≠ some [] := by decide

/-- Claim C4, amended: `chunk_text` on the empty string returns exactly one
chunk, whose text is the empty string (for every sufficient fuel). -/
theorem c4_empty_input_single_empty_chunk :
    ∀ fuel : Nat,
      chunk_text "" 300 800 (fuel + 2) = some [("", "Non-heading content, 0 tokens")] := by
  intro fuel
  unfold chunk_text
  rw [chunkLoop_step (by decide)]
  rw [show stepIter (split_markdown_into_paragraphs "") 800 initSt =
        ⟨1, [], [("", "Non-heading content, 0 tokens")]⟩ from by decide]
  rw [chunkLoop_done (by decide)]
  decide

/-- Claim C5, counterexample: on `"<!-- pagebreak -->\n\nSome text."` the
single emitted chunk's text is not `"Some text."` (the page-break paragraph
is retained in the chunk). -/
theorem c5_page_break_counterexample :
    ∃ c r : String,
      chunk_text "<!-- pagebreak -->\n\nSome text." 300 800 3 = some [(c, r)] ∧
        c ≠ "Some text." :=
  ⟨"<!-- pagebreak -->\n\nSome text.", "Non-heading content, 5 tokens",
    by decide, by decide⟩

/-- Claim C5, amended: the input produces exactly one chunk, whose text is
the whole input `"<!-- pagebreak -->\n\nSome text."`: the page-break
paragraph is kept (a chunk is dropped only when it consists solely of page
breaks). -/
theorem c5_page_break_chunk_retained :
    ∀ fuel : Nat,
      chunk_text "<!-- pagebreak -->\n\nSome text." 300 800 (fuel + 2) =
        some [("<!-- pagebreak -->\n\nSome text.", "Non-heading content, 5 tokens")] := by
  intro fuel
  unfold chunk_text
  rw [chunkLoop_step (by decide)]
  rw [show stepIter (split_markdown_into_paragraphs "<!-- pagebreak -->\n\nSome text.") 800 initSt =
        ⟨2, [], [("<!-- pagebreak -->\n\nSome text.", "Non-heading content, 5 tokens")]⟩ from
        by decide]
  rw [chunkLoop_done (by decide)]
  decide

/-- Claim C3, counterexample: with `hard_limit = 10`, two deferred heading
paragraphs of 9 tokens each are merged into the following content chunk,
which then carries 19 > 10 tokens although it is neither a table chunk nor a
force-split window (its reason records the 10 tokens counted without the
merged pending headings). -/
theorem c3_hard_limit_counterexample :
    ∃ c r : String,
      chunk_text "# a b c d e f g h\n\n# b b b b b b b b\n\nx" 300 10 10 = some [(c, r)] ∧
        10 < get_token_count c ∧
        r = "Content under heading level 1, 10 tokens" :=
  ⟨"# a b c d e f g h\n\n# b b b b b b b b\n\nx",
    "Content under heading level 1, 10 tokens", by decide, by decide, rfl⟩

/-- Claim C6, counterexample: force-splitting the oversized heading
`"# pagebreak x"` with `hard_limit = 2` emits the window `"# pagebreak"`,
a chunk consisting solely of page-break paragraphs. -/
theorem c6_page_break_counterexample :
    chunk_text "# pagebreak x" 300 2 10 =
      some [("# pagebreak", "Force-split oversized heading (0-2 of 3 words)"),
        ("x", "Force-split oversized heading (2-3 of 3 words)")] ∧
      (∀ q ∈ splitNNs "# pagebreak", is_page_break q = true) := by
  constructor
  · decide
  · decide

/-- Claim C8, counterexample: on eight consecutive level-1 headings the
pending-headings buffer holds 7 paragraphs after seven loop iterations,
while the cursor has not yet reached the end of the paragraph sequence —
the claimed upper bound of 6 fails. -/
theorem c8_pending_bound_counterexample :
    (stepN (split_markdown_into_paragraphs
        "# a\n\n# a\n\n# a\n\n# a\n\n# a\n\n# a\n\n# a\n\n# a") 800 7 initSt).pending.length = 7 ∧
      (stepN (split_markdown_into_paragraphs
        "# a\n\n# a\n\n# a\n\n# a\n\n# a\n\n# a\n\n# a\n\n# a") 800 7 initSt).i <
        (split_markdown_into_paragraphs
          "# a\n\n# a\n\n# a\n\n# a\n\n# a\n\n# a\n\n# a\n\n# a").length := by
  constructor
  · decide
  · decide

/-- Claim C1 (refuted; the code contradicts its own docstring, which
promises that a paragraph exceeding `hard_limit` is split forcibly): on a
single non-heading paragraph of 1000 words with `hard_limit = 800` the
non-heading branch collects nothing, the cursor never advances, and
`chunk_text` diverges — `none` for every fuel. -/
theorem c1_chunk_text_diverges_on_oversized_paragraph :
    get_token_count oversizedText = 1000 ∧
      is_heading oversizedText = false ∧
      ∀ soft fuel : Nat, chunk_text oversizedText soft 800 fuel = none := by
  refine ⟨get_token_count_oversized, is_heading_oversized, ?_⟩
  intro soft fuel
  have hlt : (0 : Nat) < [oversizedText].length := by simp
  have hpb : is_page_break (pget [oversizedText] 0) = false := is_page_break_oversized
  have hh : is_heading (pget [oversizedText] 0) = false := is_heading_oversized
  have ht : 800 < get_token_count (pget [oversizedText] 0) := by
    rw [show pget [oversizedText] 0 = oversizedText from rfl, get_token_count_oversized]
    omega
  have hst := @chunkLoop_stall [oversizedText] 800 0 [] hlt hpb hh ht fuel
  unfold chunk_text
  rw [split_markdown_oversized]
  rw [show (initSt : ChunkSt) = ⟨0, [], []⟩ from rfl, hst]
  rfl

/-- Claim C2 (refuted; the spec names the empty-accumulator admission rule
as authoritative precisely to avoid this): on the single 1000-word
non-heading paragraph with `hard_limit = 800` the collection loop refuses
the paragraph even though the accumulator is empty, and every number of
loop iterations leaves the initial state unchanged — the paragraph is never
admitted, never emitted. -/
theorem c2_oversized_paragraph_never_admitted :
    nonHeadCollect (split_markdown_into_paragraphs oversizedText) 800 0 0 [] = (0, 0, []) ∧
      ∀ k : Nat,
        stepN (split_markdown_into_paragraphs oversizedText) 800 k initSt = initSt := by
  have hlt : (0 : Nat) < [oversizedText].length := by simp
  have hpb : is_page_break (pget [oversizedText] 0) = false := is_page_break_oversized
  have hh : is_heading (pget [oversizedText] 0) = false := is_heading_oversized
  have ht : 800 < get_token_count (pget [oversizedText] 0) := by
    rw [show pget [oversizedText] 0 = oversizedText from rfl, get_token_count_oversized]
    omega
  have ht0 : 800 < 0 + get_token_count (pget [oversizedText] 0) := by simpa using ht
  constructor
  · rw [split_markdown_oversized]
    exact nonHeadCollect_stop hlt hh ht0
  · intro k
    rw [split_markdown_oversized]
    induction k with
    | zero => rfl
    | succ k ih =>
      have hstep := @stepIter_stall [oversizedText] 800 0 [] hlt hpb hh ht
      rw [stepN_step hlt]
      rw [show (initSt : ChunkSt) = ⟨0, [], []⟩ from rfl, hstep]
      exact ih

/-- Claim C10: any paragraph whose lowercased text contains the substring
`"pagebreak"` anywhere is classified as a page break; consequently ordinary
prose mentioning the word forms a page-break-only chunk and is silently
dropped, as the second conjunct shows on a concrete prose input. -/
theorem c10_pagebreak_substring_classification :
    (∀ p : String,
        containsSub "pagebreak".data (pyLower p.data) = true → is_page_break p = true) ∧
      chunk_text "We discuss pagebreaks in this chapter." 300 800 3 = some [] := by
  constructor
  · intro p h
    simp only [is_page_break, h, Bool.or_true, Bool.true_or]
  · decide

/-- Witness for C10: the general classification theorem applied to a prose
paragraph that merely mentions the word. -/
theorem c10_pagebreak_substring_classification_witness :
    is_page_break "a pagebreak b" = true :=
  c10_pagebreak_substring_classification.1 "a pagebreak b" (by decide)

/-- Claim C3 (amended): every chunk of a completed `chunk_text` run is the
`'\n\n'`-join of a paragraph list that splits as headings ++ core ++
headings, where the core is within `hard_limit` unless it is the
heading-plus-table pair admitted on an empty accumulator, and the chunk's
token count is the sum over these paragraphs — so an excess over
`hard_limit` can also come from merged heading paragraphs (pending headings
merged in during the run or at finalization), not only from the two
exceptions the claim names. -/
theorem c3_token_bound_decomposition (text : String) (soft hard fuel : Nat)
    (out : List (String × String)) (h : chunk_text text soft hard fuel = some out) :
    ∀ c ∈ out, ∃ ps pre core post : List String,
      c.1 = joinNN ps ∧
      get_token_count c.1 = sumT ps ∧
      ps = pre ++ core ++ post ∧
      (∀ q ∈ pre, is_heading q = true) ∧
      (∀ q ∈ post, is_heading q = true) ∧
      (sumT core ≤ hard ∨
        ∃ hd tb : String, core = [hd, tb] ∧ is_heading hd = true ∧ is_table tb = true) := by
  intro c hc
  obtain ⟨gss', hout, hgood, _⟩ := chunk_text_spec h
  rw [hout] at hc
  rcases List.mem_map.mp hc with ⟨g, hg, rfl⟩
  obtain ⟨hne, hNN, hDL, hpb, pre, core, post, hdecomp, hpreH, hpostH, hsize⟩ := hgood g hg
  exact ⟨g.1, pre, core, post, rfl, get_token_count_joinNN g.1, hdecomp, hpreH, hpostH, hsize⟩

/-- Witness for C3: the amended decomposition applied to a completed run on
a one-paragraph input. -/
theorem c3_token_bound_decomposition_witness :
    ∃ ps pre core post : List String,
      ("a" : String) = joinNN ps ∧
      get_token_count "a" = sumT ps ∧
      ps = pre ++ core ++ post ∧
      (∀ q ∈ pre, is_heading q = true) ∧
      (∀ q ∈ post, is_heading q = true) ∧
      (sumT core ≤ 800 ∨
        ∃ hd tb : String, core = [hd, tb] ∧ is_heading hd = true ∧ is_table tb = true) :=
  c3_token_bound_decomposition "a" 300 800 2
    [("a", "Non-heading content, 1 tokens")] (by decide)
    ("a", "Non-heading content, 1 tokens") (by decide)

/-- Claim C6 (amended): a chunk of a completed `chunk_text` run whose
paragraphs are all page breaks can only be a force-split window of an
oversized heading (its reason starts with "Force-split oversized heading");
every other emission path drops all-page-break chunks, but the force-split
path, contrary to the claim, does not. -/
theorem c6_page_break_only_chunks (text : String) (soft hard fuel : Nat)
    (out : List (String × String)) (h : chunk_text text soft hard fuel = some out) :
    ∀ c ∈ out, (∀ q ∈ splitNNs c.1, is_page_break q = true) →
      List.IsPrefix "Force-split oversized heading".data c.2.data := by
  intro c hc hall
  obtain ⟨gss', hout, hgood, _⟩ := chunk_text_spec h
  rw [hout] at hc
  rcases List.mem_map.mp hc with ⟨g, hg, rfl⟩
  obtain ⟨hne, hNN, hDL, hpb, _⟩ := hgood g hg
  have hres : splitNNs (joinNN g.1) = g.1 := splitNNs_joinNN hne hNN hDL
  have hall' : ∀ q ∈ g.1, is_page_break q = true := by
    intro q hq
    apply hall
    show q ∈ splitNNs (joinNN g.1)
    rw [hres]
    exact hq
  exact hpb hall'

/-- Witness for C6: the amended page-break property applied to the
all-page-break force-split window emitted for `"# pagebreak x"`. -/
theorem c6_page_break_only_chunks_witness :
    List.IsPrefix "Force-split oversized heading".data
      "Force-split oversized heading (0-2 of 3 words)".data :=
  c6_page_break_only_chunks "# pagebreak x" 300 2 10
    [("# pagebreak", "Force-split oversized heading (0-2 of 3 words)"),
     ("x", "Force-split oversized heading (2-3 of 3 words)")] (by decide)
    ("# pagebreak", "Force-split oversized heading (0-2 of 3 words)") (by decide)
    (by decide)

/-- Claim C7: re-splitting each emitted chunk text at the introduced
`"\n\n"` separators and concatenating, the run reconstructs the input
paragraph sequence in order — every paragraph is kept, dropped only if it is
a page break, or (if an oversized heading) replaced by its force-split
windows; and the windows of a force-split partition the paragraph's own
words contiguously and in order. -/
theorem c7_reconstruction (text : String) (soft hard fuel : Nat)
    (out : List (String × String)) (h : chunk_text text soft hard fuel = some out) :
    Recon hard (split_markdown_into_paragraphs text)
      ((out.map (fun c => splitNNs c.1)).flatten) ∧
    (1 ≤ hard → ∀ p : String,
      ((((window_chunks p hard).map Prod.fst).map (fun w => splitWs w.data)).flatten) =
        splitWs p.data) := by
  obtain ⟨gss', hout, hgood, hrec⟩ := chunk_text_spec h
  constructor
  · have hmapeq : out.map (fun c => splitNNs c.1) = gss'.map Prod.fst := by
      rw [hout, List.map_map]
      refine List.map_congr_left ?_
      intro g hg
      obtain ⟨hne, hNN, hDL, _⟩ := hgood g hg
      show splitNNs (joinNN g.1) = g.1
      exact splitNNs_joinNN hne hNN hDL
    rw [hmapeq]
    exact hrec
  · intro hhard p
    exact windows_partition_words hhard p

/-- Witness for C7: the reconstruction relation instantiated on a completed
run over a page-break paragraph followed by prose. -/
theorem c7_reconstruction_witness :
    Recon 800 (split_markdown_into_paragraphs "d")
      (([(("d" : String), ("Non-heading content, 1 tokens" : String))].map
        (fun c => splitNNs c.1)).flatten) ∧
    (1 ≤ 800 → ∀ p : String,
      ((((window_chunks p 800).map Prod.fst).map (fun w => splitWs w.data)).flatten) =
        splitWs p.data) :=
  c7_reconstruction "d" 300 800 2 [("d", "Non-heading content, 1 tokens")] (by decide)

/-- Claim C8 (amended): at every point of a `chunk_text` run every paragraph
held in the pending-headings buffer is classified as a heading; the claimed
size bound of at most 6 paragraphs is false — consecutive deferred heading
groups accumulate without bound (the counterexample reaches 7). -/
theorem c8_pending_only_headings (text : String) (hard k : Nat) :
    ∀ p ∈ (stepN (split_markdown_into_paragraphs text) hard k initSt).pending,
      is_heading p = true := by
  intro p hp
  have hs := @stepN_inv (split_markdown_into_paragraphs text) hard
    (split_markdown_hasNN text) (split_markdown_endsNL text) k initSt
    (stInv_init (split_markdown_into_paragraphs text) hard)
  obtain ⟨_, _, _, _, _, _, _, _, _, _, _, hpendH, _, _, _⟩ := hs
  exact hpendH p hp

/-- Witness for C8: after one iteration on two sibling headings the buffer
holds the first heading, and the amended invariant classifies it. -/
theorem c8_pending_only_headings_witness : is_heading "# a" = true :=
  c8_pending_only_headings "# a\n\n# b" 800 1 "# a" (by decide)

end ChunkMd
